import Mathlib

/-!
Verification of the reading-progress engine of the omgreadx repository.

Text is modelled as `List Char`; pixel geometry as `ℚ`; numbers that the
TypeScript source manipulates as JavaScript numbers are modelled as exact
rationals (every constant involved is exactly representable and every
comparison in the claims is robust, so no rounding behaviour is lost).
The whitespace class is modelled as the four characters that the source
itself enumerates (space, tab, newline, carriage return).
-/

/-- Whitespace test shared by the model (the characters of the source's
whitespace handling). -/
def isWsChar (c : Char) : Bool :=
  c = ' ' || c = '\t' || c = '\n' || c = '\r'

/-- Accumulator pass behind `splitWords`: `acc` holds the reversed current
word. -/
def splitWordsAux : List Char → List Char → List (List Char)
  | [], acc => if acc.isEmpty then [] else [acc.reverse]
  | c :: cs, acc =>
    if isWsChar c then
      if acc.isEmpty then splitWordsAux cs []
      else acc.reverse :: splitWordsAux cs []
    else splitWordsAux cs (c :: acc)

/-- Model of the idiom `text.split(/\s+/).filter(w => w.length > 0)` used
throughout the source: the list of maximal whitespace-free runs. -/
def splitWords (s : List Char) : List (List Char) :=
  splitWordsAux s []

/-- Model of JavaScript `String.prototype.trim`. -/
def trimChars (s : List Char) : List Char :=
  ((s.dropWhile isWsChar).reverse.dropWhile isWsChar).reverse

/-- Model of `words.join(' ')`. -/
def joinWords : List (List Char) → List Char
  | [] => []
  | [w] => w
  | w :: v :: ws => w ++ ' ' :: joinWords (v :: ws)

/-- One reading unit, mirroring the `Paragraph` interface of the viewer
(`src/unnamed/part_008`, lines 37-46). -/
structure Paragraph where
  id : ℕ
  text : List Char
  wordCount : ℕ
  isCompleted : Bool
  readingStartTime : Option ℤ := none
  readingDuration : Option ℤ := none
deriving DecidableEq

/-! Constants of `parseTextIntoParagraphs` (`src/unnamed/part_008`,
lines 617-647). -/

def segHeaderHeight : ℚ := 80

def segProgressBarHeight : ℚ := 8

def segScrollPadding : ℚ := 40

def segContainerPadding : ℚ := 48

def segFontSize : ℚ := 24

def segLineHeight : ℚ := 42

def segContainerPaddingHorizontal : ℚ := 24

/-- The segmenter's hard-coded average character width in pixels
(`const avgCharWidth = 12` at `src/unnamed/part_008` line 641). -/
def segmenterAvgCharWidth : ℚ := 12

def segAvgWordLength : ℚ := 5

/-- The words-per-viewport estimate of `parseTextIntoParagraphs`. -/
def estimatedWordsPerScreen (screenWidth screenHeight : ℚ) : ℤ :=
  let availableHeight :=
    screenHeight - segHeaderHeight - segProgressBarHeight - segScrollPadding - segContainerPadding
  let estimatedContainerWidth := screenWidth - segScrollPadding - segContainerPaddingHorizontal
  let linesPerScreen := Rat.floor (availableHeight / segLineHeight)
  let charsPerLine := Rat.floor (estimatedContainerWidth / segmenterAvgCharWidth)
  let wordsPerLine := Rat.floor ((charsPerLine : ℚ) / (segAvgWordLength + 1))
  linesPerScreen * wordsPerLine

/-- The 90%-of-capacity chunk-closing threshold. -/
def chunkThreshold (screenWidth screenHeight : ℚ) : ℤ :=
  Rat.floor ((estimatedWordsPerScreen screenWidth screenHeight : ℚ) * (9 / 10))

/-- The greedy viewport-fill loop of `parseTextIntoParagraphs`: accumulate
words, closing the chunk as soon as the running count reaches the
threshold; a trailing partial chunk is emitted at the end. -/
def chunkWordsAux (thresh : ℤ) : List (List Char) → List (List Char) → ℕ → List (List (List Char))
  | [], cur, _ => if cur.isEmpty then [] else [cur.reverse]
  | w :: rest, cur, cnt =>
    if thresh ≤ (cnt : ℤ) + 1 then
      ((w :: cur).reverse) :: chunkWordsAux thresh rest [] 0
    else
      chunkWordsAux thresh rest (w :: cur) (cnt + 1)

/-- The paragraph built from one closed chunk of words. -/
def chunkParagraph (p : ℕ × List (List Char)) : Paragraph :=
  { id := p.1, text := joinWords p.2, wordCount := p.2.length, isCompleted := false }

/-- The placeholder paragraph (`text.trim() || ' '`) emitted for empty input. -/
def placeholderParagraph (text : List Char) : Paragraph :=
  { id := 0, text := if (trimChars text).isEmpty then [' '] else trimChars text,
    wordCount := 0, isCompleted := false }

/-- The chunks of the greedy viewport-fill pass. -/
def segChunks (screenWidth screenHeight : ℚ) (text : List Char) : List (List (List Char)) :=
  chunkWordsAux (chunkThreshold screenWidth screenHeight) (splitWords text) [] 0

/-- The paragraphs built from the chunks (ids are sequential from 0). -/
def segProcessed (screenWidth screenHeight : ℚ) (text : List Char) : List Paragraph :=
  (segChunks screenWidth screenHeight text).enum.map chunkParagraph

/-- Model of `parseTextIntoParagraphs` (`src/unnamed/part_008`,
lines 617-701): split into words, chunk greedily, and fall back to a single
placeholder paragraph when no chunk was produced. -/
def parseTextIntoParagraphs (screenWidth screenHeight : ℚ) (text : List Char) : List Paragraph :=
  if (segProcessed screenWidth screenHeight text).isEmpty then [placeholderParagraph text]
  else segProcessed screenWidth screenHeight text

/-! Lemmas about word splitting. -/

theorem splitWordsAux_mem :
    ∀ (s acc w : List Char), (∀ c ∈ acc, isWsChar c = false) → w ∈ splitWordsAux s acc →
      w ≠ [] ∧ ∀ c ∈ w, isWsChar c = false := by
  intro s
  induction s with
  | nil =>
    intro acc w hacc hw
    by_cases h : acc.isEmpty
    · simp [splitWordsAux, h] at hw
    · simp [splitWordsAux, h] at hw
      subst hw
      constructor
      · simp only [ne_eq, List.reverse_eq_nil_iff]
        intro hnil
        rw [hnil] at h
        exact h rfl
      · intro c hc
        exact hacc c (List.mem_reverse.mp hc)
  | cons c cs ih =>
    intro acc w hacc hw
    by_cases hws : isWsChar c
    · by_cases h : acc.isEmpty
      · simp [splitWordsAux, hws, h] at hw
        exact ih [] w (by simp) hw
      · simp [splitWordsAux, hws, h] at hw
        rcases hw with hw | hw
        · subst hw
          constructor
          · simp only [ne_eq, List.reverse_eq_nil_iff]
            intro hnil
            rw [hnil] at h
            exact h rfl
          · intro d hd
            exact hacc d (List.mem_reverse.mp hd)
        · exact ih [] w (by simp) hw
    · simp [splitWordsAux, hws] at hw
      refine ih (c :: acc) w ?_ hw
      intro d hd
      rcases List.mem_cons.mp hd with h1 | h1
      · subst h1
        simpa using hws
      · exact hacc d h1

theorem splitWordsAux_nonws :
    ∀ (w acc : List Char), (∀ c ∈ w, isWsChar c = false) →
      splitWordsAux w acc = if (acc.reverse ++ w).isEmpty then [] else [acc.reverse ++ w] := by
  intro w
  induction w with
  | nil =>
    intro acc _
    cases acc <;> simp [splitWordsAux]
  | cons c cs ih =>
    intro acc hw
    have hc : isWsChar c = false := hw c (by simp)
    have hcs : ∀ d ∈ cs, isWsChar d = false := fun d hd => hw d (List.mem_cons_of_mem _ hd)
    simp only [splitWordsAux, hc, Bool.false_eq_true, if_neg, not_false_iff]
    rw [ih (c :: acc) hcs]
    simp

theorem splitWordsAux_ws_sep (sep : Char) (hsep : isWsChar sep = true) :
    ∀ (w acc rest : List Char), (∀ c ∈ w, isWsChar c = false) → acc.reverse ++ w ≠ [] →
      splitWordsAux (w ++ sep :: rest) acc = (acc.reverse ++ w) :: splitWordsAux rest [] := by
  intro w
  induction w with
  | nil =>
    intro acc rest _ hne
    simp only [List.append_nil] at hne
    have hacc : acc.isEmpty = false := by
      cases acc
      · simp at hne
      · rfl
    simp [splitWordsAux, hsep, hacc]
  | cons c cs ih =>
    intro acc rest hw hne
    have hc : isWsChar c = false := hw c (by simp)
    have hcs : ∀ d ∈ cs, isWsChar d = false := fun d hd => hw d (List.mem_cons_of_mem _ hd)
    show splitWordsAux (c :: (cs ++ sep :: rest)) acc = _
    simp only [splitWordsAux, hc, Bool.false_eq_true, if_neg, not_false_iff]
    rw [ih (c :: acc) rest hcs (by simp)]
    simp

theorem splitWords_joinWords :
    ∀ ws : List (List Char),
      (∀ w ∈ ws, w ≠ [] ∧ ∀ c ∈ w, isWsChar c = false) →
      splitWords (joinWords ws) = ws := by
  intro ws
  induction ws with
  | nil => intro _; rfl
  | cons w vs ih =>
    intro h
    have hw := h w (by simp)
    cases vs with
    | nil =>
      show splitWordsAux w [] = [w]
      rw [splitWordsAux_nonws w [] hw.2]
      have : w.isEmpty = false := by
        cases w
        · exact absurd rfl hw.1
        · rfl
      simp [this]
    | cons v vs' =>
      show splitWordsAux (w ++ ' ' :: joinWords (v :: vs')) [] = w :: (v :: vs')
      rw [splitWordsAux_ws_sep ' ' (by decide) w [] _ hw.2 (by simpa using hw.1)]
      have hrest := ih (fun u hu => h u (List.mem_cons_of_mem _ hu))
      simpa [splitWords] using congrArg (w :: ·) hrest

theorem chunkWordsAux_flatten (thresh : ℤ) :
    ∀ (rest cur : List (List Char)) (cnt : ℕ),
      (chunkWordsAux thresh rest cur cnt).flatten = cur.reverse ++ rest := by
  intro rest
  induction rest with
  | nil =>
    intro cur cnt
    cases cur <;> simp [chunkWordsAux]
  | cons w rest ih =>
    intro cur cnt
    by_cases h : thresh ≤ (cnt : ℤ) + 1
    · simp [chunkWordsAux, h, ih]
    · simp [chunkWordsAux, h, ih]

theorem splitWordsAux_eq_nil :
    ∀ (s acc : List Char), splitWordsAux s acc = [] → acc = [] ∧ ∀ c ∈ s, isWsChar c = true := by
  intro s
  induction s with
  | nil =>
    intro acc h
    by_cases hacc : acc.isEmpty
    · cases acc
      · exact ⟨rfl, by simp⟩
      · simp at hacc
    · simp [splitWordsAux, hacc] at h
  | cons c cs ih =>
    intro acc h
    by_cases hws : isWsChar c
    · by_cases hacc : acc.isEmpty
      · simp only [splitWordsAux, hws, if_pos, hacc] at h
        have hc := ih [] h
        constructor
        · cases acc
          · rfl
          · simp at hacc
        · intro d hd
          rcases List.mem_cons.mp hd with h1 | h1
          · subst h1; exact hws
          · exact hc.2 d h1
      · simp [splitWordsAux, hws, hacc] at h
    · simp only [splitWordsAux, hws, Bool.false_eq_true, if_neg, not_false_iff] at h
      have := (ih (c :: acc) h).1
      simp at this

theorem dropWhile_all (p : Char → Bool) :
    ∀ s : List Char, (∀ c ∈ s, p c = true) → s.dropWhile p = [] := by
  intro s
  induction s with
  | nil => intro _; rfl
  | cons c cs ih =>
    intro h
    rw [List.dropWhile_cons]
    simp only [h c (by simp), if_pos]
    exact ih fun d hd => h d (List.mem_cons_of_mem _ hd)

theorem trimChars_eq_nil (s : List Char) (h : ∀ c ∈ s, isWsChar c = true) :
    trimChars s = [] := by
  unfold trimChars
  rw [dropWhile_all _ s h]
  rfl

theorem enumFrom_map_snd {α β : Type} (f : α → β) :
    ∀ (l : List α) (n : ℕ), (List.enumFrom n l).map (fun p => f p.2) = l.map f := by
  intro l
  induction l with
  | nil => intro n; rfl
  | cons a l ih =>
    intro n
    simp only [List.enumFrom, List.map_cons, List.map]
    exact congrArg (f a :: ·) (ih (n + 1))

/-- C1: for every viewport and every input text, concatenating the word lists
of all reading units produced by `parseTextIntoParagraphs` reproduces the word
sequence of the original text; the unit list is never empty; and for empty or
whitespace-only input exactly one placeholder unit containing a single space
is emitted. -/
theorem C1_segmentation_coverage (screenWidth screenHeight : ℚ) (text : List Char) :
    ((parseTextIntoParagraphs screenWidth screenHeight text).map
        (fun p => splitWords p.text)).flatten = splitWords text
    ∧ parseTextIntoParagraphs screenWidth screenHeight text ≠ []
    ∧ (splitWords text = [] →
        parseTextIntoParagraphs screenWidth screenHeight text
          = [{ id := 0, text := [' '], wordCount := 0, isCompleted := false }]) := by
  classical
  have hjoin : (segChunks screenWidth screenHeight text).flatten = splitWords text := by
    rw [segChunks, chunkWordsAux_flatten]
    rfl
  by_cases hempty : segChunks screenWidth screenHeight text = []
  · have hwsnil : splitWords text = [] := by rw [← hjoin, hempty]; rfl
    have hws : ∀ c ∈ text, isWsChar c = true := (splitWordsAux_eq_nil text [] hwsnil).2
    have htrim : trimChars text = [] := trimChars_eq_nil text hws
    have hplace : parseTextIntoParagraphs screenWidth screenHeight text
        = [{ id := 0, text := [' '], wordCount := 0, isCompleted := false }] := by
      rw [parseTextIntoParagraphs, segProcessed, hempty]
      simp [placeholderParagraph, htrim]
    refine ⟨?_, by rw [hplace]; simp, fun _ => hplace⟩
    rw [hplace, hwsnil]
    simp [splitWords, splitWordsAux, isWsChar]
  · have hchmem : ∀ chunk ∈ segChunks screenWidth screenHeight text,
        ∀ w ∈ chunk, w ≠ [] ∧ ∀ c ∈ w, isWsChar c = false := by
      intro chunk hc w hw
      have hwj : w ∈ (segChunks screenWidth screenHeight text).flatten :=
        List.mem_flatten.mpr ⟨chunk, hc, hw⟩
      rw [hjoin] at hwj
      exact splitWordsAux_mem text [] w (by simp) hwj
    have hne : (segProcessed screenWidth screenHeight text).isEmpty = false := by
      rw [segProcessed]
      cases h : segChunks screenWidth screenHeight text
      · exact absurd h hempty
      · rfl
    have hmain : parseTextIntoParagraphs screenWidth screenHeight text
        = segProcessed screenWidth screenHeight text := by
      rw [parseTextIntoParagraphs, hne]
      rfl
    refine ⟨?_, ?_, ?_⟩
    · rw [hmain, segProcessed, List.map_map]
      have h1 : ((fun p : Paragraph => splitWords p.text) ∘ chunkParagraph)
          = fun p : ℕ × List (List Char) => splitWords (joinWords p.2) := rfl
      rw [h1]
      have h2 := enumFrom_map_snd (fun ws => splitWords (joinWords ws))
        (segChunks screenWidth screenHeight text) 0
      rw [show (segChunks screenWidth screenHeight text).enum
          = List.enumFrom 0 (segChunks screenWidth screenHeight text) from rfl, h2]
      have h3 : (segChunks screenWidth screenHeight text).map
            (fun ws => splitWords (joinWords ws))
          = segChunks screenWidth screenHeight text := by
        have hmc := List.map_congr_left (l := segChunks screenWidth screenHeight text)
          (f := fun ws => splitWords (joinWords ws)) (g := id)
          (fun ws hws => splitWords_joinWords ws (hchmem ws hws))
        simpa using hmc
      rw [h3, hjoin]
    · rw [hmain]
      intro hcontra
      rw [hcontra] at hne
      exact absurd hne (by simp)
    · intro hnil
      exfalso
      apply hempty
      rw [segChunks, hnil]
      rfl

theorem C1_segmentation_coverage_witness :
    parseTextIntoParagraphs 360 780 [' ', '\n']
      = [{ id := 0, text := [' '], wordCount := 0, isCompleted := false }] :=
  (C1_segmentation_coverage 360 780 [' ', '\n']).2.2 (by decide)

/-! Persistence layer (`src/unnamed/part_003`): records and list-level
upsert/lookup operations. -/

/-- Persisted reading-progress record, mirroring the `ReadingProgress`
interface of `src/unnamed/part_003` (lines 16-23). -/
structure ProgressRec where
  filename : List Char
  fileUri : List Char
  currentParagraphIndex : ℤ
  completedParagraphs : List ℤ
  lastUpdated : ℤ
  totalParagraphs : ℤ
deriving DecidableEq

/-- Persisted reading-session record, mirroring the `ReadingSession`
interface of `src/unnamed/part_003` (lines 5-14). -/
structure SessionRec where
  id : List Char
  filename : List Char
  totalParagraphs : ℕ
  completedParagraphs : ℕ
  totalWords : ℕ
  readingTime : ℕ
  completionPercentage : ℤ
  date : ℤ
deriving DecidableEq

/-- List-level effect of `saveReadingSession` (lines 62-92): every existing
record with the same id is removed, then the new record is appended. -/
def saveReadingSessionStep (store : List SessionRec) (s : SessionRec) : List SessionRec :=
  store.filter (fun t => decide (t.id ≠ s.id)) ++ [s]

/-- List-level effect of `saveReadingProgress` (lines 244-273): keyed by
`filename` alone. -/
def saveReadingProgressStep (store : List ProgressRec) (p : ProgressRec) : List ProgressRec :=
  store.filter (fun q => decide (q.filename ≠ p.filename)) ++ [p]

/-- Lookup of `getFileReadingProgress` (lines 331-344): the first record
matching by filename, or by URI when a URI is supplied. -/
def getFileReadingProgress (store : List ProgressRec) (filename : List Char)
    (fileUri : Option (List Char)) : Option ProgressRec :=
  store.find? fun p =>
    decide (p.filename = filename) ||
      (match fileUri with
       | some u => decide (p.fileUri = u)
       | none => false)

/-- A default paragraph used only as the out-of-range value of `List.getD`. -/
def defaultParagraph : Paragraph :=
  { id := 0, text := [], wordCount := 0, isCompleted := false }

/-- Mark the paragraph at one position completed (`parsedParagraphs[idx]
.isCompleted = true`). -/
def markIdx : List Paragraph → ℕ → List Paragraph
  | [], _ => []
  | p :: ps, 0 => { p with isCompleted := true } :: ps
  | p :: ps, n + 1 => p :: markIdx ps n

/-- The `savedProgress.completedParagraphs.forEach` loop of `loadAndParseFile`
(`src/unnamed/part_008` lines 581-585): indices outside `[0, length)` are
skipped. -/
def applyCompleted (paras : List Paragraph) (idxs : List ℤ) : List Paragraph :=
  idxs.foldl
    (fun ps idx => if 0 ≤ idx ∧ idx < (ps.length : ℤ) then markIdx ps idx.toNat else ps) paras

/-- The progress-restoration step of `loadAndParseFile` (`src/unnamed/part_008`
lines 577-590): when the stored record's `totalParagraphs` equals the fresh
unit count, completed flags are applied and the resume index is
`min(currentParagraphIndex, length - 1)`; otherwise the record is ignored and
reading starts at index 0. -/
def restoreProgress (saved : Option ProgressRec) (paras : List Paragraph) :
    List Paragraph × ℤ :=
  match saved with
  | none => (paras, 0)
  | some sp =>
    if sp.totalParagraphs = (paras.length : ℤ) then
      (applyCompleted paras sp.completedParagraphs,
        min sp.currentParagraphIndex ((paras.length : ℤ) - 1))
    else (paras, 0)

theorem markIdx_length : ∀ (ps : List Paragraph) (n : ℕ), (markIdx ps n).length = ps.length := by
  intro ps
  induction ps with
  | nil => intro n; rfl
  | cons p ps ih =>
    intro n
    cases n with
    | zero => rfl
    | succ n => simp [markIdx, ih]

theorem markIdx_getD (d : Paragraph) :
    ∀ (ps : List Paragraph) (n m : ℕ),
      (markIdx ps n).getD m d =
        if m = n ∧ m < ps.length then { ps.getD m d with isCompleted := true }
        else ps.getD m d := by
  intro ps
  induction ps with
  | nil =>
    intro n m
    simp [markIdx]
  | cons p ps ih =>
    intro n m
    cases n with
    | zero =>
      cases m with
      | zero => simp [markIdx]
      | succ m => simp [markIdx]
    | succ n =>
      cases m with
      | zero => simp [markIdx]
      | succ m =>
        simp only [markIdx, List.getD_cons_succ, ih ps.length.succ.pred.succ.pred]
        rw [ih n m]
        by_cases h1 : m = n ∧ m < ps.length
        · simp [h1, Nat.succ_lt_succ_iff]
        · rw [if_neg h1, if_neg]
          intro hcon
          exact h1 ⟨Nat.succ_injective hcon.1, Nat.lt_of_succ_lt_succ hcon.2⟩

theorem applyCompleted_length :
    ∀ (idxs : List ℤ) (ps : List Paragraph), (applyCompleted ps idxs).length = ps.length := by
  intro idxs
  induction idxs with
  | nil => intro ps; rfl
  | cons i idxs ih =>
    intro ps
    show (applyCompleted (if 0 ≤ i ∧ i < (ps.length : ℤ) then markIdx ps i.toNat else ps)
      idxs).length = ps.length
    by_cases h : 0 ≤ i ∧ i < (ps.length : ℤ)
    · rw [if_pos h, ih, markIdx_length]
    · rw [if_neg h, ih]

theorem applyCompleted_mono (d : Paragraph) :
    ∀ (idxs : List ℤ) (ps : List Paragraph) (j : ℕ),
      (ps.getD j d).isCompleted = true →
      ((applyCompleted ps idxs).getD j d).isCompleted = true := by
  intro idxs
  induction idxs with
  | nil => intro ps j h; exact h
  | cons i idxs ih =>
    intro ps j h
    show (((applyCompleted (if 0 ≤ i ∧ i < (ps.length : ℤ) then markIdx ps i.toNat else ps)
      idxs).getD j d)).isCompleted = true
    by_cases hc : 0 ≤ i ∧ i < (ps.length : ℤ)
    · rw [if_pos hc]
      apply ih
      rw [markIdx_getD]
      by_cases h2 : j = i.toNat ∧ j < ps.length
      · rw [if_pos h2]
      · rw [if_neg h2]; exact h
    · rw [if_neg hc]
      exact ih ps j h

theorem applyCompleted_marks (d : Paragraph) :
    ∀ (idxs : List ℤ) (ps : List Paragraph) (i : ℤ),
      i ∈ idxs → 0 ≤ i → i < (ps.length : ℤ) →
      ((applyCompleted ps idxs).getD i.toNat d).isCompleted = true := by
  intro idxs
  induction idxs with
  | nil => intro ps i h; simp at h
  | cons k idxs ih =>
    intro ps i hmem h0 hlt
    rcases List.mem_cons.mp hmem with heq | htail
    · subst heq
      show (((applyCompleted (if 0 ≤ i ∧ i < (ps.length : ℤ) then markIdx ps i.toNat else ps)
        idxs).getD i.toNat d)).isCompleted = true
      rw [if_pos ⟨h0, hlt⟩]
      apply applyCompleted_mono
      rw [markIdx_getD]
      have hlt2 : i.toNat < ps.length := by omega
      rw [if_pos ⟨rfl, hlt2⟩]
    · show (((applyCompleted (if 0 ≤ k ∧ k < (ps.length : ℤ) then markIdx ps k.toNat else ps)
        idxs).getD i.toNat d)).isCompleted = true
      by_cases hc : 0 ≤ k ∧ k < (ps.length : ℤ)
      · rw [if_pos hc]
        apply ih _ _ htail h0
        rw [markIdx_length]
        exact hlt
      · rw [if_neg hc]
        exact ih ps i htail h0 hlt

/-- C2: on load, a stored record whose `totalParagraphs` matches the fresh
unit count restores the resume index and marks every listed completed unit;
a mismatching record is ignored and reading starts at unit 0 with the
paragraph list untouched. -/
theorem C2_resume_restore (paras : List Paragraph) (sp : ProgressRec) :
    (sp.totalParagraphs = (paras.length : ℤ) →
      (0 ≤ sp.currentParagraphIndex → sp.currentParagraphIndex < (paras.length : ℤ) →
        (restoreProgress (some sp) paras).2 = sp.currentParagraphIndex)
      ∧ ∀ i ∈ sp.completedParagraphs, 0 ≤ i → i < (paras.length : ℤ) →
          ((restoreProgress (some sp) paras).1.getD i.toNat defaultParagraph).isCompleted
            = true)
    ∧ (sp.totalParagraphs ≠ (paras.length : ℤ) →
        restoreProgress (some sp) paras = (paras, 0)) := by
  constructor
  · intro hmatch
    constructor
    · intro h0 hlt
      show (if sp.totalParagraphs = (paras.length : ℤ) then _ else (paras, 0)).2
        = sp.currentParagraphIndex
      rw [if_pos hmatch]
      show min sp.currentParagraphIndex ((paras.length : ℤ) - 1) = sp.currentParagraphIndex
      omega
    · intro i hmem h0 hlt
      show ((if sp.totalParagraphs = (paras.length : ℤ) then _ else (paras, 0)).1.getD
        i.toNat defaultParagraph).isCompleted = true
      rw [if_pos hmatch]
      exact applyCompleted_marks defaultParagraph sp.completedParagraphs paras i hmem h0 hlt
  · intro hne
    show (if sp.totalParagraphs = (paras.length : ℤ) then _ else (paras, 0)) = (paras, 0)
    rw [if_neg hne]

/-- Ten fresh one-word paragraphs, used only to witness `C2_resume_restore`. -/
def c2ParasEx : List Paragraph :=
  (List.range 10).map fun i =>
    { id := i, text := ['a'], wordCount := 1, isCompleted := false }

/-- A stored record resuming at unit 4 with units 0-3 complete, used only to
witness `C2_resume_restore`. -/
def c2SpEx : ProgressRec :=
  { filename := ['d'], fileUri := ['u'], currentParagraphIndex := 4,
    completedParagraphs := [0, 1, 2, 3], lastUpdated := 0, totalParagraphs := 10 }

theorem C2_resume_restore_witness :
    (restoreProgress (some c2SpEx) c2ParasEx).2 = 4
    ∧ ((restoreProgress (some c2SpEx) c2ParasEx).1.getD 2 defaultParagraph).isCompleted
        = true := by
  refine ⟨((C2_resume_restore c2ParasEx c2SpEx).1 (by decide)).1 (by decide) (by decide), ?_⟩
  have h := ((C2_resume_restore c2ParasEx c2SpEx).1 (by decide)).2 2 (by decide)
    (by decide) (by decide)
  exact h

/-! Idempotence of the two persistence save paths. -/

theorem progress_filter_ne_then_eq (name : List Char) :
    ∀ store : List ProgressRec,
      (store.filter fun q => decide (q.filename ≠ name)).filter
        (fun q => decide (q.filename = name)) = [] := by
  intro store
  induction store with
  | nil => rfl
  | cons q store ih =>
    by_cases h : q.filename = name
    · simp [List.filter_cons, h, ih]
    · simp [List.filter_cons, h, ih]

theorem session_filter_ne_then_eq (sid : List Char) :
    ∀ store : List SessionRec,
      (store.filter fun t => decide (t.id ≠ sid)).filter
        (fun t => decide (t.id = sid)) = [] := by
  intro store
  induction store with
  | nil => rfl
  | cons t store ih =>
    by_cases h : t.id = sid
    · simp [List.filter_cons, h, ih]
    · simp [List.filter_cons, h, ih]

theorem saveReadingProgressStep_filter (store : List ProgressRec) (p : ProgressRec) :
    (saveReadingProgressStep store p).filter
      (fun q => decide (q.filename = p.filename)) = [p] := by
  rw [saveReadingProgressStep, List.filter_append, progress_filter_ne_then_eq]
  simp

theorem saveReadingSessionStep_filter (store : List SessionRec) (s : SessionRec) :
    (saveReadingSessionStep store s).filter (fun t => decide (t.id = s.id)) = [s] := by
  rw [saveReadingSessionStep, List.filter_append, session_filter_ne_then_eq]
  simp

/-- C9: both save paths are idempotent upserts: two progress saves under the
same filename leave exactly one record for that filename holding the second
save's values, and any number of session saves under one session id leave
exactly one session record holding the last save's values. -/
theorem C9_idempotent_persistence :
    (∀ (store : List ProgressRec) (p1 p2 : ProgressRec), p1.filename = p2.filename →
      (saveReadingProgressStep (saveReadingProgressStep store p1) p2).filter
        (fun q => decide (q.filename = p2.filename)) = [p2])
    ∧ ∀ (store saves : List SessionRec) (last : SessionRec) (sid : List Char),
        (∀ t ∈ saves, t.id = sid) → last.id = sid →
        ((saves ++ [last]).foldl saveReadingSessionStep store).filter
          (fun t => decide (t.id = sid)) = [last] := by
  constructor
  · intro store p1 p2 _
    exact saveReadingProgressStep_filter (saveReadingProgressStep store p1) p2
  · intro store saves last sid _ hlast
    rw [List.foldl_append]
    subst hlast
    exact saveReadingSessionStep_filter (saves.foldl saveReadingSessionStep store) last

/-- A session record constructor used only to witness the persistence claims. -/
def mkSessionEx (n : ℕ) : SessionRec :=
  { id := ['s'], filename := ['f'], totalParagraphs := 10, completedParagraphs := n,
    totalWords := n * 50, readingTime := n * 30, completionPercentage := n * 10, date := 0 }

/-- A progress record constructor used only to witness the persistence
claims. -/
def mkProgressEx (uri : Char) (cur : ℤ) : ProgressRec :=
  { filename := ['f'], fileUri := [uri], currentParagraphIndex := cur,
    completedParagraphs := [], lastUpdated := 0, totalParagraphs := 10 }

theorem C9_idempotent_persistence_witness :
    ((saveReadingProgressStep (saveReadingProgressStep [] (mkProgressEx 'u' 1))
        (mkProgressEx 'u' 2)).filter
      (fun q => decide (q.filename = (mkProgressEx 'u' 2).filename)) = [mkProgressEx 'u' 2])
    ∧ (([mkSessionEx 1, mkSessionEx 2] ++ [mkSessionEx 3]).foldl saveReadingSessionStep
        []).filter (fun t => decide (t.id = ['s'])) = [mkSessionEx 3] :=
  ⟨C9_idempotent_persistence.1 [] (mkProgressEx 'u' 1) (mkProgressEx 'u' 2) (by decide),
   C9_idempotent_persistence.2 [] [mkSessionEx 1, mkSessionEx 2] (mkSessionEx 3) ['s']
     (by decide) (by decide)⟩

theorem find?_append_of_none {α : Type} (p : α → Bool) :
    ∀ (l1 l2 : List α), (∀ x ∈ l1, p x = false) → List.find? p (l1 ++ l2) = List.find? p l2 := by
  intro l1
  induction l1 with
  | nil => intro l2 _; rfl
  | cons a l1 ih =>
    intro l2 h
    rw [List.cons_append, List.find?_cons, h a (by simp)]
    exact ih l2 fun x hx => h x (List.mem_cons_of_mem _ hx)

theorem mem_of_mem_filter_pr {p : ProgressRec → Bool} :
    ∀ {store : List ProgressRec} {q : ProgressRec}, q ∈ store.filter p → q ∈ store := by
  intro store q h
  exact List.mem_of_mem_filter h

/-- C10: the progress upsert key is the filename alone: two saves that share
a filename but differ in `fileUri` leave exactly one record for that
filename, holding the second save's values, and the lookup keyed on the
first document's (filename, fileUri) now returns the second document's
record. -/
theorem C10_upsert_key_is_filename (store : List ProgressRec) (p1 p2 : ProgressRec)
    (hname : p1.filename = p2.filename) (huri : p1.fileUri ≠ p2.fileUri)
    (hclean : ∀ q ∈ store, q.fileUri ≠ p1.fileUri) :
    ((saveReadingProgressStep (saveReadingProgressStep store p1) p2).filter
        (fun q => decide (q.filename = p1.filename)) = [p2])
    ∧ getFileReadingProgress (saveReadingProgressStep (saveReadingProgressStep store p1) p2)
        p1.filename (some p1.fileUri) = some p2 := by
  constructor
  · rw [hname]
    exact saveReadingProgressStep_filter (saveReadingProgressStep store p1) p2
  · rw [getFileReadingProgress, saveReadingProgressStep]
    rw [find?_append_of_none]
    · simp [hname]
    · intro q hq
      have hq2 := List.mem_of_mem_filter hq
      have hqname : q.filename ≠ p2.filename := by
        have := List.of_mem_filter hq
        simpa using this
      rw [saveReadingProgressStep] at hq2
      rcases List.mem_append.mp hq2 with hq3 | hq3
      · have hquri : q.fileUri ≠ p1.fileUri := hclean q (List.mem_of_mem_filter hq3)
        simp [hqname, hquri, hname]
      · have hqp1 : q = p1 := by simpa using hq3
        subst hqp1
        exact absurd hname hqname

theorem C10_upsert_key_is_filename_witness :
    getFileReadingProgress
        (saveReadingProgressStep (saveReadingProgressStep [] (mkProgressEx 'u' 1))
          (mkProgressEx 'v' 2))
        (mkProgressEx 'u' 1).filename (some (mkProgressEx 'u' 1).fileUri)
      = some (mkProgressEx 'v' 2) :=
  (C10_upsert_key_is_filename [] (mkProgressEx 'u' 1) (mkProgressEx 'v' 2)
    (by decide) (by decide) (by intro q hq; simp at hq)).2

/-! Line mapper (`src/utils/textLineMapper.ts`). -/

/-- Line bounding box, mirroring the `LineBounds` interface
(`src/utils/textLineMapper.ts` lines 8-17). -/
structure LineBounds where
  lineIndex : ℕ
  x : ℚ
  y : ℚ
  width : ℚ
  height : ℚ
  leftBoundary : ℚ
  rightBoundary : ℚ
  text : List Char
deriving DecidableEq

/-- Mapper configuration (`TextLineMapperConfig`, lines 19-26). -/
structure MapperConfig where
  fontSize : ℚ
  lineHeight : ℚ
  containerWidth : ℚ
  containerX : ℚ
  containerY : ℚ
  padding : ℚ
deriving DecidableEq

/-- The Line Mapper's per-character width: `fontSize * 0.6`
(`src/utils/textLineMapper.ts` line 43). -/
def mapperAvgCharWidth (fontSize : ℚ) : ℚ :=
  fontSize * (6 / 10)

/-- The Line Mapper's estimated pixel width of a piece of text:
`testLine.length * avgCharWidth` (line 49). -/
def mapperEstimatedWidth (text : List Char) (fontSize : ℚ) : ℚ :=
  (text.length : ℚ) * mapperAvgCharWidth fontSize

/-- The greedy word-wrap loop of `mapTextToLines` (lines 47-63). -/
def wrapWordsAux (cfg : MapperConfig) : List (List Char) → List Char → List (List Char)
  | [], cur => if cur.isEmpty then [] else [cur]
  | w :: ws, cur =>
    if mapperEstimatedWidth (if cur.isEmpty then w else cur ++ ' ' :: w) cfg.fontSize
          ≤ cfg.containerWidth - 2 * cfg.padding
        ∧ cur.isEmpty = false then
      wrapWordsAux cfg ws (cur ++ ' ' :: w)
    else
      if cur.isEmpty then wrapWordsAux cfg ws w
      else cur :: wrapWordsAux cfg ws w

/-- The bounding box of one wrapped line (lines 66-86). -/
def makeLineBounds (cfg : MapperConfig) (p : ℕ × List Char) : LineBounds :=
  { lineIndex := p.1,
    x := cfg.containerX + cfg.padding,
    y := cfg.containerY + (p.1 : ℚ) * cfg.lineHeight,
    width := min (mapperEstimatedWidth p.2 cfg.fontSize) (cfg.containerWidth - 2 * cfg.padding),
    height := cfg.lineHeight,
    leftBoundary := cfg.containerX + cfg.padding,
    rightBoundary := cfg.containerX + cfg.padding
      + min (mapperEstimatedWidth p.2 cfg.fontSize) (cfg.containerWidth - 2 * cfg.padding),
    text := p.2 }

/-- `TextLineMapper.mapTextToLines` (lines 38-87). -/
def mapTextToLines (cfg : MapperConfig) (text : List Char) : List LineBounds :=
  (wrapWordsAux cfg (splitWords text) []).enum.map (makeLineBounds cfg)

/-- Gaze sample (`GazePoint`, `src/utils/eyeTracking.ts` lines 3-7). -/
structure GazePoint where
  x : ℚ
  y : ℚ
  timestamp : ℤ
deriving DecidableEq

/-- The point-in-box test of `mapGazeToLine` (lines 92-104). -/
def inLineBounds (gx gy : ℚ) (l : LineBounds) : Bool :=
  decide (l.y ≤ gy) && decide (gy ≤ l.y + l.height) &&
    decide (l.leftBoundary ≤ gx) && decide (gx ≤ l.rightBoundary)

/-- `TextLineMapper.mapGazeToLine`: first matching line wins. -/
def mapGazeToLine (gx gy : ℚ) (lines : List LineBounds) : Option LineBounds :=
  lines.find? (inLineBounds gx gy)

/-- `TextLineMapper.hasPassedRightBoundary` (lines 109-113). -/
def hasPassedRightBoundary (gx : ℚ) (l : LineBounds) (threshold : ℚ) : Bool :=
  decide (l.leftBoundary + l.width * threshold ≤ gx)

/-- `TextLineMapper.calculateLineProgress` (lines 118-124). -/
def calculateLineProgress (gx : ℚ) (l : LineBounds) : ℚ :=
  if gx < l.leftBoundary then 0
  else if l.rightBoundary < gx then 1
  else max 0 (min 1 ((gx - l.leftBoundary) / l.width))

/-- Per-line reading state of the tracker (`LineReadingState`,
`src/unnamed/part_006` lines 9-18). -/
structure LineReadingState where
  lineIndex : ℕ
  bounds : LineBounds
  gazeHistory : List GazePoint
  startTime : ℤ
  isComplete : Bool
  completionPercentage : ℚ
  leftToRightProgress : ℚ
  hasReachedRightBoundary : Bool
deriving DecidableEq

/-- `Math.min(...xs)` over a sample list. -/
def listMinQ : List ℚ → ℚ
  | [] => 0
  | x :: xs => xs.foldl min x

/-- `Math.max(...xs)` over a sample list. -/
def listMaxQ : List ℚ → ℚ
  | [] => 0
  | x :: xs => xs.foldl max x

/-- `history.slice(-5)`: the last `n` elements. -/
def lastN {α : Type} (n : ℕ) (l : List α) : List α :=
  l.drop (l.length - n)

/-- Lines 78-83 of `src/unnamed/part_006`: append the sample to the history,
raise `leftToRightProgress` to the maximum seen, and set
`completionPercentage` from the current sample's progress. -/
def gazeProgressUpdate (cl : LineReadingState) (g : GazePoint) : LineReadingState :=
  { cl with
    gazeHistory := cl.gazeHistory ++ [g]
    leftToRightProgress := max cl.leftToRightProgress (calculateLineProgress g.x cl.bounds)
    completionPercentage := min 100 (calculateLineProgress g.x cl.bounds * 100) }

/-- Lines 86-95: the right-edge completion rule (threshold 0.9). -/
def gazeRightEdgeRule (cl : LineReadingState) (g : GazePoint) (s1 : LineReadingState) :
    LineReadingState :=
  if hasPassedRightBoundary g.x cl.bounds (9 / 10) then
    if s1.isComplete then { s1 with hasReachedRightBoundary := true }
    else { s1 with
           hasReachedRightBoundary := true
           isComplete := true
           completionPercentage := 100 }
  else s1

/-- Lines 97-113: the sweep rule over the last five samples (coverage at
least 0.7 of the line width and maximum progress at least 0.8). -/
def gazeSweepRule (cl : LineReadingState) (s2 : LineReadingState) : LineReadingState :=
  if 2 ≤ s2.gazeHistory.length then
    if (7 / 10 : ℚ) ≤ (listMaxQ ((lastN 5 s2.gazeHistory).map (fun p => p.x))
          - listMinQ ((lastN 5 s2.gazeHistory).map (fun p => p.x))) / cl.bounds.width
        ∧ (8 / 10 : ℚ) ≤ s2.leftToRightProgress then
      if s2.isComplete then s2
      else { s2 with isComplete := true, completionPercentage := 100 }
    else s2
  else s2

/-- The in-bounds update of `ReadingProgressTracker.processGaze`
(`src/unnamed/part_006` lines 76-113): progress update, then the right-edge
rule, then the sweep rule, in source order. -/
def updateLineWithGaze (cl : LineReadingState) (g : GazePoint) : LineReadingState :=
  gazeSweepRule cl (gazeRightEdgeRule cl g (gazeProgressUpdate cl g))

/-- Tracker state (`ReadingProgressTracker`, `src/unnamed/part_006`
lines 28-35): the line-state map keyed by line index is a positional list. -/
structure TrackerState where
  lineStates : List LineReadingState
  currentLineIndex : ℕ
deriving DecidableEq

/-- `ReadingProgressTracker.processGaze` (`src/unnamed/part_006`
lines 63-119): samples outside the current line's bounds leave every line
state unchanged; in-bounds samples replace the current line's state by its
update. -/
def processGaze (ts : TrackerState) (g : GazePoint) : TrackerState :=
  match ts.lineStates[ts.currentLineIndex]? with
  | none => ts
  | some cl =>
    match mapGazeToLine g.x g.y [cl.bounds] with
    | none => ts
    | some mapped =>
      if mapped.lineIndex = ts.currentLineIndex then
        { ts with lineStates := ts.lineStates.set ts.currentLineIndex (updateLineWithGaze cl g) }
      else ts

/-- A fresh line state as created by `initializeLines`
(`src/unnamed/part_006` lines 44-55). -/
def freshLineState (b : LineBounds) : LineReadingState :=
  { lineIndex := b.lineIndex, bounds := b, gazeHistory := [], startTime := 0,
    isComplete := false, completionPercentage := 0, leftToRightProgress := 0,
    hasReachedRightBoundary := false }

/-- The 300px-wide line starting at x = 20 of the completion scenarios. -/
def exBounds : LineBounds :=
  { lineIndex := 0, x := 20, y := 100, width := 300, height := 40,
    leftBoundary := 20, rightBoundary := 320, text := [] }

/-- A single-line tracker over `exBounds`. -/
def exTracker : TrackerState :=
  { lineStates := [freshLineState exBounds], currentLineIndex := 0 }

/-- Feed in-bounds samples with the given x coordinates to the tracker. -/
def runSamples (ts : TrackerState) (xs : List ℚ) : TrackerState :=
  xs.foldl (fun t p => processGaze t { x := p, y := 110, timestamp := 0 }) ts

/-- The default line state used only as the out-of-range value of
`List.getD`. -/
def defaultLineState : LineReadingState :=
  freshLineState exBounds

/-- `markParagraphComplete` (`src/unnamed/part_008` lines 173-209), state
update only (its completion-callback side effect is modelled by the
completion guard below): the indexed paragraph, when present and not yet
completed, is marked completed and its reading duration fixed. -/
def markParagraphComplete (now : ℤ) (paras : List Paragraph) (index : ℕ) : List Paragraph :=
  match paras[index]? with
  | none => paras
  | some p =>
    if p.isCompleted then paras
    else paras.set index
      { p with
        isCompleted := true
        readingDuration := p.readingStartTime.map (fun t => now - t) }

/-- The one-shot completion guard (`completionTriggeredRef`,
`src/unnamed/part_008` lines 88, 190-205 and 397-409): `fireCount` counts
invocations of the completion callback. -/
structure CompletionGuard where
  completionTriggered : Bool
  fireCount : ℕ
deriving DecidableEq

/-- One evaluation of the completion check over a paragraph snapshot
(`allComplete && onComplete && !completionTriggeredRef.current`, identical in
both code paths). -/
def evalCompletionCheck (s : CompletionGuard) (snapshot : List Paragraph) : CompletionGuard :=
  if snapshot.all (fun p => p.isCompleted) && !s.completionTriggered then
    { completionTriggered := true, fireCount := s.fireCount + 1 }
  else s

/-- A sequence of completion-check evaluations in arrival order. -/
def runCompletionChecks (s : CompletionGuard) (evs : List (List Paragraph)) : CompletionGuard :=
  evs.foldl evalCompletionCheck s

theorem runCompletionChecks_triggered :
    ∀ (evs : List (List Paragraph)) (n : ℕ),
      runCompletionChecks { completionTriggered := true, fireCount := n } evs
        = { completionTriggered := true, fireCount := n } := by
  intro evs
  induction evs with
  | nil => intro n; rfl
  | cons ps evs ih =>
    intro n
    show runCompletionChecks
      (evalCompletionCheck { completionTriggered := true, fireCount := n } ps) evs = _
    rw [show evalCompletionCheck { completionTriggered := true, fireCount := n } ps
        = { completionTriggered := true, fireCount := n } by
      simp [evalCompletionCheck]]
    exact ih n

/-- C7: from a fresh guard, any sequence of completion-check evaluations
fires the completion callback exactly once when some evaluation sees all
paragraphs complete, and never otherwise; redundant re-evaluations cannot
fire it again. -/
theorem C7_completion_fires_once (evs : List (List Paragraph)) :
    (runCompletionChecks { completionTriggered := false, fireCount := 0 } evs).fireCount
      = if evs.any (fun ps => ps.all fun p => p.isCompleted) then 1 else 0 := by
  have main : ∀ (evs : List (List Paragraph)) (n : ℕ),
      (runCompletionChecks { completionTriggered := false, fireCount := n } evs).fireCount
        = if evs.any (fun ps => ps.all fun p => p.isCompleted) then n + 1 else n := by
    intro evs
    induction evs with
    | nil => intro n; rfl
    | cons ps evs ih =>
      intro n
      show (runCompletionChecks
        (evalCompletionCheck { completionTriggered := false, fireCount := n } ps) evs).fireCount = _
      by_cases hall : ps.all (fun p => p.isCompleted)
      · rw [show evalCompletionCheck { completionTriggered := false, fireCount := n } ps
            = { completionTriggered := true, fireCount := n + 1 } by
          simp [evalCompletionCheck, hall]]
        rw [runCompletionChecks_triggered]
        simp [hall]
      · rw [show evalCompletionCheck { completionTriggered := false, fireCount := n } ps
            = { completionTriggered := false, fireCount := n } by
          simp [evalCompletionCheck, hall]]
        rw [ih n]
        simp [List.any_cons, hall]
  simpa using main evs 0

/-- Modelled from the spec: the Width Estimator contract
`estimateWidth(text, fontSizePx) = text.length * fontSizePx * 0.6`
(spec section 4.1), stated for comparison with the two code-side width
computations. -/
def estimateWidthSpec (text : List Char) (fontSizePx : ℚ) : ℚ :=
  (text.length : ℚ) * fontSizePx * (6 / 10)

/-- C4 counterexample: the claim that Segmenter and Line Mapper share the
width function fails: the segmenter hard-codes 12px per character at its
fixed 24px font, while the Line Mapper's per-character width at 24px is
24 * 0.6 = 14.4px. -/
theorem C4_claim_counterexample :
    segmenterAvgCharWidth ≠ mapperAvgCharWidth segFontSize
    ∧ mapperAvgCharWidth segFontSize = 72 / 5
    ∧ segmenterAvgCharWidth = 12 := by
  refine ⟨?_, ?_, rfl⟩
  · norm_num [segmenterAvgCharWidth, mapperAvgCharWidth, segFontSize]
  · norm_num [mapperAvgCharWidth, segFontSize]

/-- C4 amended: the Line Mapper's width estimate equals the spec contract
`text.length * fontSize * 0.6` for every text and font size, but the
Segmenter does not reuse it: at the segmenter's fixed 24px font the mapper's
estimate is consistently 6/5 of the segmenter's 12px-per-character estimate,
the two per-character widths being 14.4px and 12px. -/
theorem C4_amended_width_estimators (text : List Char) (fontSize : ℚ) :
    mapperEstimatedWidth text fontSize = estimateWidthSpec text fontSize
    ∧ mapperEstimatedWidth text segFontSize
        = (6 / 5) * ((text.length : ℚ) * segmenterAvgCharWidth)
    ∧ segmenterAvgCharWidth ≠ mapperAvgCharWidth segFontSize := by
  refine ⟨?_, ?_, ?_⟩
  · rw [mapperEstimatedWidth, estimateWidthSpec, mapperAvgCharWidth]
    ring
  · rw [mapperEstimatedWidth, mapperAvgCharWidth, segmenterAvgCharWidth, segFontSize]
    ring
  · norm_num [segmenterAvgCharWidth, mapperAvgCharWidth, segFontSize]

section ConcreteEvaluation

attribute [local semireducible] Rat.sub Rat.add Rat.mul Rat.inv

/-- C6: on the 300px line starting at x = 20, the five in-bounds samples at
x = 25, 80, 150, 210, 260 complete the line exactly on the fifth sample via
the sweep rule (span 235/300 at least 0.7, maximum progress 0.8 at least
0.8), although no sample passes the right-edge threshold at x = 290 and no
earlier prefix of the samples completes the line. -/
theorem C6_sweep_rule_scenario :
    ((runSamples exTracker [25]).lineStates.getD 0 defaultLineState).isComplete = false
    ∧ ((runSamples exTracker [25, 80]).lineStates.getD 0 defaultLineState).isComplete = false
    ∧ ((runSamples exTracker [25, 80, 150]).lineStates.getD 0 defaultLineState).isComplete
        = false
    ∧ ((runSamples exTracker [25, 80, 150, 210]).lineStates.getD 0
        defaultLineState).isComplete = false
    ∧ ((runSamples exTracker [25, 80, 150, 210, 260]).lineStates.getD 0
        defaultLineState).isComplete = true
    ∧ ([25, 80, 150, 210, 260] : List ℚ).all
        (fun p => !hasPassedRightBoundary p exBounds (9 / 10)) = true
    ∧ (listMaxQ [25, 80, 150, 210, 260] - listMinQ [25, 80, 150, 210, 260]) / exBounds.width
        = 235 / 300
    ∧ ((7 : ℚ) / 10 ≤ (235 : ℚ) / 300)
    ∧ calculateLineProgress 260 exBounds = 8 / 10 := by
  decide

end ConcreteEvaluation

/-! Projection lemmas for the gaze-update pipeline. -/

/-- The sweep rule's firing condition, read off lines 98-106 of
`src/unnamed/part_006`. -/
def sweepFires (cl s2 : LineReadingState) : Prop :=
  2 ≤ s2.gazeHistory.length
    ∧ ((7 / 10 : ℚ) ≤ (listMaxQ ((lastN 5 s2.gazeHistory).map (fun p => p.x))
          - listMinQ ((lastN 5 s2.gazeHistory).map (fun p => p.x))) / cl.bounds.width
        ∧ (8 / 10 : ℚ) ≤ s2.leftToRightProgress)

instance (cl s2 : LineReadingState) : Decidable (sweepFires cl s2) := by
  unfold sweepFires
  infer_instance

theorem gazeRightEdgeRule_isComplete (cl : LineReadingState) (g : GazePoint)
    (s1 : LineReadingState) :
    (gazeRightEdgeRule cl g s1).isComplete
      = (s1.isComplete || hasPassedRightBoundary g.x cl.bounds (9 / 10)) := by
  unfold gazeRightEdgeRule
  split_ifs with h1 h2 <;> simp_all

theorem gazeRightEdgeRule_pct (cl : LineReadingState) (g : GazePoint)
    (s1 : LineReadingState) :
    (gazeRightEdgeRule cl g s1).completionPercentage
      = if s1.isComplete = false ∧ hasPassedRightBoundary g.x cl.bounds (9 / 10) = true
        then 100 else s1.completionPercentage := by
  unfold gazeRightEdgeRule
  split_ifs with h1 h2 <;> simp_all

theorem gazeRightEdgeRule_lr (cl : LineReadingState) (g : GazePoint)
    (s1 : LineReadingState) :
    (gazeRightEdgeRule cl g s1).leftToRightProgress = s1.leftToRightProgress := by
  unfold gazeRightEdgeRule
  split_ifs <;> rfl

theorem gazeRightEdgeRule_hist (cl : LineReadingState) (g : GazePoint)
    (s1 : LineReadingState) :
    (gazeRightEdgeRule cl g s1).gazeHistory = s1.gazeHistory := by
  unfold gazeRightEdgeRule
  split_ifs <;> rfl

theorem gazeSweepRule_isComplete (cl s2 : LineReadingState) :
    (gazeSweepRule cl s2).isComplete = (s2.isComplete || decide (sweepFires cl s2)) := by
  unfold gazeSweepRule sweepFires
  split_ifs with h1 h2 h3 <;> simp_all

theorem gazeSweepRule_pct (cl s2 : LineReadingState) :
    (gazeSweepRule cl s2).completionPercentage
      = if s2.isComplete = false ∧ sweepFires cl s2 then 100
        else s2.completionPercentage := by
  unfold gazeSweepRule sweepFires
  split_ifs with h1 h2 h3 <;> simp_all

theorem gazeSweepRule_lr (cl s2 : LineReadingState) :
    (gazeSweepRule cl s2).leftToRightProgress = s2.leftToRightProgress := by
  unfold gazeSweepRule
  split_ifs <;> rfl

theorem updateLineWithGaze_lr (cl : LineReadingState) (g : GazePoint) :
    (updateLineWithGaze cl g).leftToRightProgress
      = max cl.leftToRightProgress (calculateLineProgress g.x cl.bounds) := by
  unfold updateLineWithGaze
  rw [gazeSweepRule_lr, gazeRightEdgeRule_lr]
  rfl

theorem updateLineWithGaze_isComplete (cl : LineReadingState) (g : GazePoint) :
    (updateLineWithGaze cl g).isComplete
      = ((cl.isComplete || hasPassedRightBoundary g.x cl.bounds (9 / 10))
          || decide (sweepFires cl (gazeRightEdgeRule cl g (gazeProgressUpdate cl g)))) := by
  unfold updateLineWithGaze
  rw [gazeSweepRule_isComplete, gazeRightEdgeRule_isComplete]
  rfl

theorem updateLineWithGaze_isComplete_mono (cl : LineReadingState) (g : GazePoint)
    (h : cl.isComplete = true) : (updateLineWithGaze cl g).isComplete = true := by
  rw [updateLineWithGaze_isComplete, h]
  rfl

theorem updateLineWithGaze_pct (cl : LineReadingState) (g : GazePoint) :
    (updateLineWithGaze cl g).completionPercentage
      = if cl.isComplete = false ∧ (updateLineWithGaze cl g).isComplete = true then (100 : ℚ)
        else min 100 (calculateLineProgress g.x cl.bounds * 100) := by
  have hpu1 : (gazeProgressUpdate cl g).isComplete = cl.isComplete := rfl
  have hpu2 : (gazeProgressUpdate cl g).completionPercentage
      = min 100 (calculateLineProgress g.x cl.bounds * 100) := rfl
  by_cases hc : cl.isComplete
  · have h2 : (gazeRightEdgeRule cl g (gazeProgressUpdate cl g)).isComplete = true := by
      rw [gazeRightEdgeRule_isComplete, hpu1, hc]
      rfl
    rw [show updateLineWithGaze cl g
        = gazeSweepRule cl (gazeRightEdgeRule cl g (gazeProgressUpdate cl g)) from rfl]
    rw [gazeSweepRule_pct, gazeRightEdgeRule_pct]
    simp [h2, hpu1, hc, hpu2]
  · have hcf : cl.isComplete = false := by simpa using hc
    by_cases hp : hasPassedRightBoundary g.x cl.bounds (9 / 10)
    · have h2 : (gazeRightEdgeRule cl g (gazeProgressUpdate cl g)).isComplete = true := by
        rw [gazeRightEdgeRule_isComplete, hpu1, hp]
        simp
      have h3 : (updateLineWithGaze cl g).isComplete = true := by
        rw [updateLineWithGaze_isComplete, hcf, hp]
        rfl
      rw [show updateLineWithGaze cl g
          = gazeSweepRule cl (gazeRightEdgeRule cl g (gazeProgressUpdate cl g)) from rfl]
      rw [gazeSweepRule_pct, gazeRightEdgeRule_pct]
      simp only [h2, hpu1, hcf, hp, and_true, true_and]
      rw [show updateLineWithGaze cl g
          = gazeSweepRule cl (gazeRightEdgeRule cl g (gazeProgressUpdate cl g)) from rfl] at h3
      simp [h3, hcf]
    · have hpf : hasPassedRightBoundary g.x cl.bounds (9 / 10) = false := by simpa using hp
      have h2 : (gazeRightEdgeRule cl g (gazeProgressUpdate cl g)).isComplete = false := by
        rw [gazeRightEdgeRule_isComplete, hpu1, hcf, hpf]
        rfl
      have h2pct : (gazeRightEdgeRule cl g (gazeProgressUpdate cl g)).completionPercentage
          = min 100 (calculateLineProgress g.x cl.bounds * 100) := by
        rw [gazeRightEdgeRule_pct, hpf]
        simp [hpu2]
      by_cases hs : sweepFires cl (gazeRightEdgeRule cl g (gazeProgressUpdate cl g))
      · have h3 : (updateLineWithGaze cl g).isComplete = true := by
          rw [updateLineWithGaze_isComplete, hcf, hpf]
          simp [hs]
        rw [show updateLineWithGaze cl g
            = gazeSweepRule cl (gazeRightEdgeRule cl g (gazeProgressUpdate cl g)) from rfl] at h3
        rw [show updateLineWithGaze cl g
            = gazeSweepRule cl (gazeRightEdgeRule cl g (gazeProgressUpdate cl g)) from rfl]
        rw [gazeSweepRule_pct]
        simp [h2, hs, h3, hcf]
      · have h3 : (updateLineWithGaze cl g).isComplete = false := by
          rw [updateLineWithGaze_isComplete, hcf, hpf]
          simp [hs]
        rw [show updateLineWithGaze cl g
            = gazeSweepRule cl (gazeRightEdgeRule cl g (gazeProgressUpdate cl g)) from rfl] at h3
        rw [show updateLineWithGaze cl g
            = gazeSweepRule cl (gazeRightEdgeRule cl g (gazeProgressUpdate cl g)) from rfl]
        rw [gazeSweepRule_pct]
        simp [h2, hs, h2pct, h3]

/-- C5 amended: for every in-bounds attention sample on the current line,
`leftToRightProgress` (the maximum horizontal progress) is raised to
`max(previous, progress)` and never decreases, while `completionPercentage`
is set to `min(100, 100 * currentProgress)` from the current sample alone —
not the rounded running maximum — and is overwritten with 100 exactly when
the sample newly completes the line; it can therefore decrease when a later
sample lands further left. -/
theorem C5_amended_percentage_update (ts : TrackerState) (g : GazePoint)
    (cl : LineReadingState)
    (hget : ts.lineStates[ts.currentLineIndex]? = some cl)
    (hin : mapGazeToLine g.x g.y [cl.bounds] = some cl.bounds)
    (hidx : cl.bounds.lineIndex = ts.currentLineIndex) :
    processGaze ts g
        = { ts with lineStates :=
              ts.lineStates.set ts.currentLineIndex (updateLineWithGaze cl g) }
    ∧ (updateLineWithGaze cl g).leftToRightProgress
        = max cl.leftToRightProgress (calculateLineProgress g.x cl.bounds)
    ∧ cl.leftToRightProgress ≤ (updateLineWithGaze cl g).leftToRightProgress
    ∧ (updateLineWithGaze cl g).completionPercentage
        = (if cl.isComplete = false ∧ (updateLineWithGaze cl g).isComplete = true then (100 : ℚ)
           else min 100 (calculateLineProgress g.x cl.bounds * 100)) := by
  refine ⟨?_, updateLineWithGaze_lr cl g, ?_, updateLineWithGaze_pct cl g⟩
  · simp [processGaze, hget, hin, hidx]
  · rw [updateLineWithGaze_lr]
    exact le_max_left _ _

theorem getD_set {α : Type} (d : α) :
    ∀ (l : List α) (n i : ℕ) (a : α),
      (l.set n a).getD i d = if i = n ∧ n < l.length then a else l.getD i d := by
  intro l
  induction l with
  | nil =>
    intro n i a
    simp
  | cons x l ih =>
    intro n i a
    cases n with
    | zero =>
      cases i with
      | zero => simp
      | succ i => simp [List.set]
    | succ n =>
      cases i with
      | zero => simp [List.set]
      | succ i =>
        simp only [List.set, List.getD_cons_succ]
        rw [ih n i a]
        by_cases h1 : i = n ∧ n < l.length
        · simp [h1, Nat.succ_lt_succ_iff]
        · rw [if_neg h1, if_neg]
          intro hcon
          exact h1 ⟨Nat.succ_injective hcon.1, Nat.lt_of_succ_lt_succ hcon.2⟩

theorem getD_of_getElem?_eq_some {α : Type} (d : α) :
    ∀ (l : List α) (n : ℕ) (x : α), l[n]? = some x → l.getD n d = x := by
  intro l
  induction l with
  | nil =>
    intro n x h
    simp at h
  | cons y l ih =>
    intro n x h
    cases n with
    | zero =>
      simp at h
      simpa using h
    | succ n =>
      simp only [List.getElem?_cons_succ] at h
      simpa using ih n x h

/-- C8: completion flags are monotone within one load: the tracker's
per-line `isComplete` is never reset by `processGaze` (both rules only ever
set it), and a paragraph's `isCompleted` is never reset by
`markParagraphComplete`. -/
theorem C8_monotone_completion :
    (∀ (cl : LineReadingState) (g : GazePoint),
        cl.isComplete = true → (updateLineWithGaze cl g).isComplete = true)
    ∧ (∀ (ts : TrackerState) (g : GazePoint) (i : ℕ),
        (ts.lineStates.getD i defaultLineState).isComplete = true →
        ((processGaze ts g).lineStates.getD i defaultLineState).isComplete = true)
    ∧ (∀ (now : ℤ) (paras : List Paragraph) (index j : ℕ),
        (paras.getD j defaultParagraph).isCompleted = true →
        ((markParagraphComplete now paras index).getD j defaultParagraph).isCompleted
          = true) := by
  refine ⟨fun cl g h => updateLineWithGaze_isComplete_mono cl g h, ?_, ?_⟩
  · intro ts g i h
    rcases hget : ts.lineStates[ts.currentLineIndex]? with _ | cl
    · simpa [processGaze, hget] using h
    · rcases hmap : mapGazeToLine g.x g.y [cl.bounds] with _ | mapped
      · simpa [processGaze, hget, hmap] using h
      · by_cases hidx : mapped.lineIndex = ts.currentLineIndex
        · have hpg : processGaze ts g
              = { ts with lineStates :=
                    ts.lineStates.set ts.currentLineIndex (updateLineWithGaze cl g) } := by
            simp [processGaze, hget, hmap, hidx]
          rw [hpg]
          show ((ts.lineStates.set ts.currentLineIndex
            (updateLineWithGaze cl g)).getD i defaultLineState).isComplete = true
          rw [getD_set]
          by_cases hi : i = ts.currentLineIndex ∧ ts.currentLineIndex < ts.lineStates.length
          · rw [if_pos hi]
            have hcl : ts.lineStates.getD i defaultLineState = cl := by
              rw [hi.1]
              exact getD_of_getElem?_eq_some defaultLineState ts.lineStates
                ts.currentLineIndex cl hget
            rw [hcl] at h
            exact updateLineWithGaze_isComplete_mono cl g h
          · rw [if_neg hi]
            exact h
        · simpa [processGaze, hget, hmap, hidx] using h
  · intro now paras index j h
    rcases hget : paras[index]? with _ | p
    · simpa [markParagraphComplete, hget] using h
    · by_cases hc : p.isCompleted
      · simpa [markParagraphComplete, hget, hc] using h
      · have hmp : markParagraphComplete now paras index
            = paras.set index
                { p with
                  isCompleted := true
                  readingDuration := p.readingStartTime.map (fun t => now - t) } := by
          simp [markParagraphComplete, hget, hc]
        rw [hmp, getD_set]
        by_cases hj : j = index ∧ index < paras.length
        · rw [if_pos hj]
        · rw [if_neg hj]
          exact h

/-- JavaScript `Math.round` on exact rationals. -/
def jsRound (q : ℚ) : ℤ :=
  Rat.floor (q + 1 / 2)

/-- State after one in-bounds sample at x = 200 on the fresh 300px line. -/
def c5After1 : TrackerState :=
  processGaze exTracker { x := 200, y := 110, timestamp := 0 }

/-- State after a further in-bounds sample at x = 50. -/
def c5After2 : TrackerState :=
  processGaze c5After1 { x := 50, y := 110, timestamp := 1 }

/-- The current line state of a single-line tracker. -/
def c5Line (ts : TrackerState) : LineReadingState :=
  ts.lineStates.getD 0 defaultLineState

/-- A line state that is already complete, used only to witness the
monotonicity claim. -/
def c8CompleteLine : LineReadingState :=
  { freshLineState exBounds with isComplete := true }

/-- A single-line tracker whose line is already complete. -/
def c8Tracker : TrackerState :=
  { lineStates := [c8CompleteLine], currentLineIndex := 0 }

/-- An already-completed paragraph, used only to witness the monotonicity
claim. -/
def c8Para : Paragraph :=
  { id := 0, text := ['a'], wordCount := 1, isCompleted := true }

section ConcreteEvaluationTwo

attribute [local semireducible] Rat.sub Rat.add Rat.mul Rat.inv

/-- C5 counterexample: the claim that after every in-bounds sample
`completionPercentage = round(100 * maxHorizontalProgress)` and never
decreases while the line is incomplete is false: on the 300px line at
x = 20, a sample at x = 200 sets the percentage to 60, and a later in-bounds
sample at x = 50 resets it to 10 while the line is still incomplete,
although the maximum progress is 3/5 and round(100 * 3/5) = 60. -/
theorem C5_claim_counterexample :
    (c5Line c5After1).completionPercentage = 60
    ∧ (c5Line c5After2).completionPercentage = 10
    ∧ (c5Line c5After2).isComplete = false
    ∧ (c5Line c5After2).leftToRightProgress = 3 / 5
    ∧ jsRound (100 * (c5Line c5After2).leftToRightProgress) = 60
    ∧ (c5Line c5After2).completionPercentage
        ≠ ((jsRound (100 * (c5Line c5After2).leftToRightProgress) : ℤ) : ℚ)
    ∧ (c5Line c5After2).completionPercentage < (c5Line c5After1).completionPercentage := by
  decide

theorem C5_amended_percentage_update_witness :
    (updateLineWithGaze (freshLineState exBounds)
        { x := 200, y := 110, timestamp := 0 }).completionPercentage
      = min 100 (calculateLineProgress 200 exBounds * 100) := by
  have h := C5_amended_percentage_update exTracker { x := 200, y := 110, timestamp := 0 }
    (freshLineState exBounds) (by decide) (by decide) (by decide)
  rw [h.2.2.2, if_neg]
  · rfl
  · intro hcon
    have h2 := hcon.2
    revert h2
    decide

theorem C8_monotone_completion_witness :
    (updateLineWithGaze c8CompleteLine { x := 50, y := 110, timestamp := 0 }).isComplete = true
    ∧ ((processGaze c8Tracker { x := 50, y := 110, timestamp := 0 }).lineStates.getD 0
        defaultLineState).isComplete = true
    ∧ ((markParagraphComplete 7 [c8Para] 0).getD 0 defaultParagraph).isCompleted = true :=
  ⟨C8_monotone_completion.1 c8CompleteLine { x := 50, y := 110, timestamp := 0 } (by decide),
   C8_monotone_completion.2.1 c8Tracker { x := 50, y := 110, timestamp := 0 } 0 (by decide),
   C8_monotone_completion.2.2 7 [c8Para] 0 0 (by decide)⟩

end ConcreteEvaluationTwo

/-! `splitLongParagraph` (`src/unnamed/part_008`, lines 707-829). -/

/-- The sentence scanner of `splitLongParagraph` (lines 729-751): cut after
a full stop followed by whitespace or end-of-text, skipping the whitespace
character, and push the trimmed leftover. `cur` holds the reversed current
sentence. -/
def splitSentencesAux : List Char → List Char → List (List Char)
  | [], cur => if (trimChars cur.reverse).isEmpty then [] else [trimChars cur.reverse]
  | [c], cur =>
    if c = '.' ∨ c = '。' then [trimChars (cur.reverse ++ [c])]
    else splitSentencesAux [] (c :: cur)
  | c :: d :: ds, cur =>
    if c = '.' ∨ c = '。' then
      if isWsChar d then trimChars (cur.reverse ++ [c]) :: splitSentencesAux ds []
      else splitSentencesAux (d :: ds) (c :: cur)
    else splitSentencesAux (d :: ds) (c :: cur)

/-- The sentences of the remaining text. -/
def splitSentences (r : List Char) : List (List Char) :=
  splitSentencesAux r []

/-- The best-split search of `splitLongParagraph` (lines 753-777):
greedily accumulate sentences; a candidate is recorded whenever the running
word count lands in the 45-55 band; the scan stops once the count would
exceed 55. -/
def findBestSplitAux : List (List Char) → List Char → ℕ → List Char → ℕ → List Char × ℕ
  | [], _, _, bestText, bestCount => (bestText, bestCount)
  | s :: rest, accText, accCount, bestText, bestCount =>
    let newCount := accCount + (splitWords s).length
    let best2 := if 45 ≤ newCount ∧ newCount ≤ 55 then accText ++ s else bestText
    let bc2 := if 45 ≤ newCount ∧ newCount ≤ 55 then newCount else bestCount
    if 55 < newCount then (best2, bc2)
    else findBestSplitAux rest (accText ++ s ++ [' ']) newCount best2 bc2

/-- The best candidate over the sentence list. -/
def findBestSplit (sentences : List (List Char)) : List Char × ℕ :=
  findBestSplitAux sentences [] 0 [] 0

/-- The whitespace characters the 55th-word scanner recognises
(line 795: space, newline and tab only - carriage return is not counted). -/
def scanWsChar (c : Char) : Bool :=
  c = ' ' || c = '\n' || c = '\t'

/-- `/\S/.test(prev)`: the previous character exists and is not
whitespace. -/
def prevNonWs : Option Char → Bool
  | some p => !(isWsChar p)
  | none => false

/-- The scanner of lines 790-804: find the position of the whitespace that
ends the `target`-th word; 0 when the scan runs out (the initialization of
`charIndex`). -/
def findWordPosAux (target : ℕ) : List Char → ℕ → Option Char → ℕ → ℕ
  | [], _, _, _ => 0
  | c :: cs, i, prev, wordIndex =>
    if scanWsChar c && decide (0 < i) && prevNonWs prev then
      if wordIndex + 1 = target then i
      else findWordPosAux target cs (i + 1) (some c) (wordIndex + 1)
    else findWordPosAux target cs (i + 1) (some c) wordIndex

/-- Position of the whitespace ending the 55th word. -/
def findWordPos55 (r : List Char) : ℕ :=
  findWordPosAux 55 r 0 none 0

/-- A sentence terminator at position `j` followed by whitespace or
end-of-text (lines 809-811). -/
def isBoundaryAt (s : List Char) (j : ℕ) : Bool :=
  match s[j]? with
  | some c =>
    (c = '.' || c = '。') &&
      (match s[j + 1]? with
       | some d => isWsChar d
       | none => true)
  | none => false

/-- The backward search of lines 806-816, scanning `steps` positions
downward from `j`; `dflt` is the already-initialized `splitPos`. -/
def searchBackLoop (s : List Char) (dflt : ℕ) : ℕ → ℕ → ℕ
  | _, 0 => dflt
  | j, steps + 1 =>
    if isBoundaryAt s j then j + 1
    else searchBackLoop s dflt (j - 1) steps

/-- The backward search over the window of up to 200 characters before the
55th-word position. -/
def searchBackFullStop (s : List Char) (charIndex : ℕ) : ℕ :=
  searchBackLoop s charIndex charIndex (min charIndex 200 + 1)

/-- One iteration of the splitting loop on a remaining text of more than 55
words (lines 728-825): take the best sentence-bounded candidate when one
landed in the 45-55 band, otherwise force a split at the 55th word,
preferring a full stop found within 200 characters backwards. -/
def splitStep (r : List Char) : List Char × List Char :=
  if (findBestSplit (splitSentences r)).1.length > 0
      ∧ 45 ≤ (findBestSplit (splitSentences r)).2 then
    (trimChars (findBestSplit (splitSentences r)).1,
      trimChars (r.drop (findBestSplit (splitSentences r)).1.length))
  else
    if 55 < (splitWords r).length then
      (trimChars (r.take (searchBackFullStop r (findWordPos55 r))),
        trimChars (r.drop (searchBackFullStop r (findWordPos55 r))))
    else (trimChars r, [])

/-- The while loop of `splitLongParagraph` (lines 719-826), with explicit
fuel (the source loop does not terminate on all inputs). -/
def splitLongLoop : ℕ → List Char → List (List Char)
  | 0, _ => []
  | fuel + 1, remaining =>
    if (trimChars remaining).isEmpty then []
    else if (splitWords remaining).length ≤ 55 then [trimChars remaining]
    else (splitStep remaining).1 :: splitLongLoop fuel (splitStep remaining).2

/-- `splitLongParagraph` (lines 707-829): texts of at most 55 words are
returned whole. -/
def splitLongParagraph (fuel : ℕ) (text : List Char) : List (List Char) :=
  if (splitWords text).length ≤ 55 then [text] else splitLongLoop fuel text

/-- A chunk ends at a sentence boundary when its last character is a full
stop (in the original text the chunk is followed by whitespace or
end-of-text). -/
def endsAtSentenceTerminator (s : List Char) : Bool :=
  match s.getLast? with
  | some c => c = '.' || c = '。'
  | none => false

/-- A sentence boundary exists within the first 55 words: one of the first
55 whitespace-delimited words ends with a full stop. -/
def boundaryWithinFirst55 (r : List Char) : Bool :=
  ((splitWords r).take 55).any endsAtSentenceTerminator

/-- The counterexample text: a 30-word sentence of one-letter words closed
by a full stop, followed by 30 ten-letter words with no further full stop,
60 words in all; the sentence boundary at word 30 lies more than 200
characters before the 55th-word position. -/
def c3Text : List Char :=
  (List.replicate 29 ['a', ' ']).flatten ++ ['a', '.', ' ']
    ++ joinWords (List.replicate 30 (List.replicate 10 'b'))

set_option maxRecDepth 8000 in
/-- C3 counterexample: on `c3Text` (60 words, a sentence boundary at word
30, hence within the first 55 words) the chosen split point does not end at
a sentence boundary: the boundary lies more than 200 characters before the
55th-word position, outside the backward-search window, so the code
hard-cuts at the 55th word. -/
theorem C3_claim_counterexample :
    55 < (splitWords c3Text).length
    ∧ boundaryWithinFirst55 c3Text = true
    ∧ (splitLongParagraph 10 c3Text).getD 0 [] ≠ []
    ∧ ((splitWords ((splitLongParagraph 10 c3Text).getD 0 [])).length ≤ 55)
    ∧ endsAtSentenceTerminator ((splitLongParagraph 10 c3Text).getD 0 []) = false := by
  decide

/-! Word-count lemmas for the splitting analysis. -/

theorem splitWordsAux_ws_mid (sep : Char) (hsep : isWsChar sep = true) :
    ∀ (a b acc : List Char),
      splitWordsAux (a ++ sep :: b) acc = splitWordsAux a acc ++ splitWordsAux b [] := by
  intro a
  induction a with
  | nil =>
    intro b acc
    cases acc <;> simp [splitWordsAux, hsep]
  | cons c cs ih =>
    intro b acc
    by_cases hws : isWsChar c
    · by_cases hacc : acc.isEmpty
      · simp [splitWordsAux, hws, hacc, ih]
      · simp [splitWordsAux, hws, hacc, ih]
    · simp [splitWordsAux, hws, ih]

theorem splitWords_ws_mid (sep : Char) (hsep : isWsChar sep = true) (a b : List Char) :
    splitWords (a ++ sep :: b) = splitWords a ++ splitWords b :=
  splitWordsAux_ws_mid sep hsep a b []

theorem splitWords_all_ws :
    ∀ s : List Char, (∀ c ∈ s, isWsChar c = true) → splitWords s = [] := by
  intro s
  induction s with
  | nil => intro _; rfl
  | cons c cs ih =>
    intro h
    show splitWordsAux (c :: cs) [] = []
    simp only [splitWordsAux, h c (by simp), if_pos, List.isEmpty_nil]
    exact ih fun d hd => h d (List.mem_cons_of_mem _ hd)

theorem splitWords_append_ws (s t : List Char) (h : ∀ c ∈ t, isWsChar c = true) :
    splitWords (s ++ t) = splitWords s := by
  cases t with
  | nil => simp
  | cons c t' =>
    rw [splitWords_ws_mid c (h c (by simp)) s t']
    rw [splitWords_all_ws t' fun d hd => h d (List.mem_cons_of_mem _ hd)]
    simp

theorem splitWords_dropWhile (s : List Char) :
    splitWords (s.dropWhile isWsChar) = splitWords s := by
  induction s with
  | nil => rfl
  | cons c cs ih =>
    by_cases hws : isWsChar c
    · rw [List.dropWhile_cons, if_pos hws]
      rw [ih]
      show splitWords cs = splitWordsAux (c :: cs) []
      simp [splitWordsAux, hws]
      rfl
    · rw [List.dropWhile_cons, if_neg (by simp [hws])]

theorem splitWords_trimChars (s : List Char) :
    splitWords (trimChars s) = splitWords s := by
  have hu : s.dropWhile isWsChar
      = trimChars s ++ ((s.dropWhile isWsChar).reverse.takeWhile isWsChar).reverse := by
    have h0 : ((s.dropWhile isWsChar).reverse.takeWhile isWsChar
        ++ (s.dropWhile isWsChar).reverse.dropWhile isWsChar).reverse
        = (s.dropWhile isWsChar).reverse.reverse := by
      rw [List.takeWhile_append_dropWhile]
    rw [List.reverse_reverse, List.reverse_append] at h0
    simpa [trimChars] using h0.symm
  have h2 : splitWords (s.dropWhile isWsChar) = splitWords (trimChars s) := by
    rw [hu, splitWords_append_ws]
    intro c hc
    rw [List.mem_reverse] at hc
    exact List.mem_takeWhile_imp hc
  rw [← h2, splitWords_dropWhile]

theorem mem_trimChars {c : Char} {s : List Char} (h : c ∈ trimChars s) : c ∈ s := by
  unfold trimChars at h
  rw [List.mem_reverse] at h
  have h2 := (List.dropWhile_sublist (l := (s.dropWhile isWsChar).reverse) (p := isWsChar)).mem h
  rw [List.mem_reverse] at h2
  exact (List.dropWhile_sublist (l := s) (p := isWsChar)).mem h2

/-- The word-count automaton: number of maximal whitespace-free runs, with
`inWord` recording whether a run is open. -/
def countW : List Char → Bool → ℕ
  | [], inWord => if inWord then 1 else 0
  | c :: cs, inWord =>
    if isWsChar c then (if inWord then 1 else 0) + countW cs false
    else countW cs true

/-- Same automaton without the final flush. -/
def countWN : List Char → Bool → ℕ
  | [], _ => 0
  | c :: cs, inWord =>
    if isWsChar c then (if inWord then 1 else 0) + countWN cs false
    else countWN cs true

/-- The automaton state after consuming a list. -/
def wsState : List Char → Bool → Bool
  | [], b => b
  | c :: cs, _ => wsState cs (!(isWsChar c))

theorem splitWordsAux_length_countW :
    ∀ (s acc : List Char), (splitWordsAux s acc).length = countW s (!acc.isEmpty) := by
  intro s
  induction s with
  | nil =>
    intro acc
    cases acc <;> simp [splitWordsAux, countW]
  | cons c cs ih =>
    intro acc
    by_cases hws : isWsChar c
    · by_cases hacc : acc.isEmpty
      · simp [splitWordsAux, countW, hws, hacc, ih]
      · simp [splitWordsAux, countW, hws, hacc, ih []]
        omega
    · simp [splitWordsAux, countW, hws, ih (c :: acc)]

theorem splitWords_length_countW (s : List Char) :
    (splitWords s).length = countW s false :=
  splitWordsAux_length_countW s []

theorem countW_append :
    ∀ (xs ys : List Char) (b : Bool),
      countW (xs ++ ys) b = countWN xs b + countW ys (wsState xs b) := by
  intro xs
  induction xs with
  | nil => intro ys b; simp [countWN, wsState]
  | cons c cs ih =>
    intro ys b
    by_cases hws : isWsChar c <;> simp [countW, countWN, wsState, hws, ih] <;> omega

theorem countWN_append :
    ∀ (xs ys : List Char) (b : Bool),
      countWN (xs ++ ys) b = countWN xs b + countWN ys (wsState xs b) := by
  intro xs
  induction xs with
  | nil => intro ys b; simp [countWN, wsState]
  | cons c cs ih =>
    intro ys b
    by_cases hws : isWsChar c <;> simp [countWN, wsState, hws, ih] <;> omega

theorem countW_eq_countWN (xs : List Char) :
    ∀ b, countW xs b = countWN xs b + (if wsState xs b then 1 else 0) := by
  induction xs with
  | nil => intro b; cases b <;> simp [countW, countWN, wsState]
  | cons c cs ih =>
    intro b
    by_cases hws : isWsChar c
    · simp only [countW, countWN, wsState, hws, if_pos, Bool.not_true]
      rw [ih false]
      ring
    · simp only [countW, countWN, wsState, hws, Bool.false_eq_true, if_neg, not_false_iff]
      rw [ih true]
      simp [hws]

theorem countW_ge_state (ys : List Char) :
    ∀ st : Bool, (if st then 1 else 0) ≤ countW ys st := by
  induction ys with
  | nil => intro st; cases st <;> simp [countW]
  | cons c cs ih =>
    intro st
    by_cases hws : isWsChar c
    · cases st <;> simp [countW, hws] <;> omega
    · simp only [countW, hws, Bool.false_eq_true, if_neg, not_false_iff]
      have h1 : 1 ≤ countW cs true := by simpa using ih true
      cases st <;> simp <;> omega

theorem countW_take_mono (s : List Char) (m n : ℕ) (hmn : m ≤ n) :
    countW (s.take m) false ≤ countW (s.take n) false := by
  have hdecomp : s.take n = s.take m ++ (s.drop m).take (n - m) := by
    rw [← List.take_add]
    congr 1
    omega
  rw [hdecomp, countW_append]
  rw [countW_eq_countWN (s.take m) false]
  have := countW_ge_state ((s.drop m).take (n - m)) (wsState (s.take m) false)
  omega

theorem wsState_concat :
    ∀ (xs : List Char) (c : Char) (b : Bool), wsState (xs ++ [c]) b = !(isWsChar c) := by
  intro xs
  induction xs with
  | nil => intro c b; rfl
  | cons d ds ih =>
    intro c b
    show wsState (ds ++ [c]) (!(isWsChar d)) = _
    exact ih c (!(isWsChar d))

theorem prevNonWs_getLast (pre : List Char) :
    prevNonWs pre.getLast? = wsState pre false := by
  rcases List.eq_nil_or_concat pre with h | ⟨ys, c, h⟩
  · rw [h]; rfl
  · rw [h, List.concat_eq_append, List.getLast?_concat, wsState_concat]
    rfl

/-! The 55th-word scanner and the backward search. -/

theorem scanWs_isWs {c : Char} (h : scanWsChar c = true) : isWsChar c = true := by
  unfold scanWsChar at h
  unfold isWsChar
  rcases Bool.or_eq_true_iff.mp h with h1 | h1
  · rcases Bool.or_eq_true_iff.mp h1 with h2 | h2 <;> simp_all
  · simp_all

theorem isWs_eq_scan_or_cr (c : Char) :
    isWsChar c = (scanWsChar c || decide (c = '\r')) := by
  unfold isWsChar scanWsChar
  by_cases h1 : c = ' ' <;> by_cases h2 : c = '\t' <;> by_cases h3 : c = '\n'
    <;> by_cases h4 : c = '\r' <;> simp [h1, h2, h3, h4]

theorem scanWs_not_terminator {c : Char} (h : scanWsChar c = true) :
    (c = '.' || c = '。') = false := by
  unfold scanWsChar at h
  rcases Bool.or_eq_true_iff.mp h with h1 | h1
  · rcases Bool.or_eq_true_iff.mp h1 with h2 | h2 <;> simp_all
  · simp_all

theorem countWN_singleton (c : Char) (st : Bool) :
    countWN [c] st = if isWsChar c ∧ st then 1 else 0 := by
  by_cases h : isWsChar c <;> cases st <;> simp [countWN, h]

theorem countW_le_length :
    ∀ (s : List Char) (b : Bool), countW s b ≤ s.length + (if b then 1 else 0) := by
  intro s
  induction s with
  | nil => intro b; cases b <;> simp [countW]
  | cons c cs ih =>
    intro b
    by_cases hws : isWsChar c
    · have h1 : countW cs false ≤ cs.length := by simpa using ih false
      cases b <;> simp [countW, hws] <;> omega
    · have h1 : countW cs true ≤ cs.length + 1 := by simpa using ih true
      simp only [countW, hws, Bool.false_eq_true, if_neg, not_false_iff]
      cases b <;> simp <;> omega

theorem findWordPosAux_spec (T : ℕ) :
    ∀ (cs pre : List Char) (w res : ℕ),
      '\r' ∉ pre ++ cs →
      w = countWN pre false →
      w + 1 ≤ T →
      res = findWordPosAux T cs pre.length pre.getLast? w →
      (res ≠ 0 →
        countW ((pre ++ cs).take res) false = T
        ∧ ∃ c, (pre ++ cs)[res]? = some c ∧ scanWsChar c = true)
      ∧ (res = 0 → countWN (pre ++ cs) false < T) := by
  intro cs
  induction cs with
  | nil =>
    intro pre w res hnr hw hwlt hres
    rw [show findWordPosAux T [] pre.length pre.getLast? w = 0 from rfl] at hres
    constructor
    · intro hne
      exact absurd hres hne
    · intro _
      rw [List.append_nil, ← hw]
      omega
  | cons c cs' ih =>
    intro pre w res hnr hw hwlt hres
    have hassoc : (pre ++ [c]) ++ cs' = pre ++ c :: cs' := by simp
    have hlen : (pre ++ [c]).length = pre.length + 1 := by simp
    have hlast : (pre ++ [c]).getLast? = some c := List.getLast?_concat ..
    have hnr' : '\r' ∉ (pre ++ [c]) ++ cs' := by rw [hassoc]; exact hnr
    rw [show findWordPosAux T (c :: cs') pre.length pre.getLast? w
        = if scanWsChar c && decide (0 < pre.length) && prevNonWs pre.getLast? then
            (if w + 1 = T then pre.length
             else findWordPosAux T cs' (pre.length + 1) (some c) (w + 1))
          else findWordPosAux T cs' (pre.length + 1) (some c) w from rfl] at hres
    by_cases hcond : (scanWsChar c && decide (0 < pre.length) && prevNonWs pre.getLast?) = true
    · rw [if_pos hcond] at hres
      have hscan : scanWsChar c = true := by
        rcases Bool.and_eq_true_iff.mp hcond with ⟨h1, _⟩
        exact (Bool.and_eq_true_iff.mp h1).1
      have hpos : 0 < pre.length := by
        rcases Bool.and_eq_true_iff.mp hcond with ⟨h1, _⟩
        have := (Bool.and_eq_true_iff.mp h1).2
        simpa using this
      have hstate : wsState pre false = true := by
        rw [← prevNonWs_getLast]
        exact (Bool.and_eq_true_iff.mp hcond).2
      by_cases htgt : w + 1 = T
      · rw [if_pos htgt] at hres
        constructor
        · intro _
          constructor
          · rw [hres]
            rw [List.take_append_of_le_length (le_refl pre.length), List.take_length]
            rw [countW_eq_countWN pre false, hstate, ← hw]
            simpa using htgt
          · refine ⟨c, ?_, hscan⟩
            rw [hres]
            rw [List.getElem?_append_right (le_refl pre.length)]
            simp
        · intro h0
          rw [hres] at h0
          omega
      · rw [if_neg htgt] at hres
        have hw' : w + 1 = countWN (pre ++ [c]) false := by
          rw [countWN_append, countWN_singleton, ← hw, hstate]
          simp [scanWs_isWs hscan]
        have hwlt' : (w + 1) + 1 ≤ T := by omega
        have := ih (pre ++ [c]) (w + 1) res hnr' hw' hwlt'
          (by rw [hlen, hlast]; exact hres)
        rw [hassoc] at this
        exact this
    · rw [if_neg hcond] at hres
      have hz : countWN [c] (wsState pre false) = 0 := by
        rw [countWN_singleton]
        by_cases hscan : scanWsChar c = true
        · have hstf : wsState pre false = false := by
            by_cases hppos : 0 < pre.length
            · have hpnw : prevNonWs pre.getLast? = false := by
                rcases Bool.eq_false_or_eq_true (prevNonWs pre.getLast?) with h | h
                · exfalso
                  apply hcond
                  simp [hscan, hppos, h]
                · exact h
              rw [← prevNonWs_getLast]
              exact hpnw
            · have hpre : pre = [] := by
                cases pre
                · rfl
                · simp at hppos
              rw [hpre]
              rfl
          simp [hstf]
        · have hcr : c ≠ '\r' := by
            intro hc
            apply hnr
            rw [hc]
            exact List.mem_append_right _ (by simp)
          have hnws : isWsChar c = false := by
            rw [isWs_eq_scan_or_cr]
            simp [hscan, hcr]
          simp [hnws]
      have hw' : w = countWN (pre ++ [c]) false := by
        rw [countWN_append, hz, ← hw]
        omega
      have := ih (pre ++ [c]) w res hnr' hw' hwlt
        (by rw [hlen, hlast]; exact hres)
      rw [hassoc] at this
      exact this

theorem searchBackLoop_cases (s : List Char) (dflt : ℕ) :
    ∀ (steps j : ℕ),
      searchBackLoop s dflt j steps = dflt
      ∨ ∃ jf, jf ≤ j ∧ isBoundaryAt s jf = true ∧ searchBackLoop s dflt j steps = jf + 1 := by
  intro steps
  induction steps with
  | zero => intro j; exact Or.inl rfl
  | succ steps ih =>
    intro j
    by_cases hb : isBoundaryAt s j
    · refine Or.inr ⟨j, le_refl j, hb, ?_⟩
      show (if isBoundaryAt s j then j + 1 else searchBackLoop s dflt (j - 1) steps) = j + 1
      rw [if_pos hb]
    · have hstep : searchBackLoop s dflt j (steps + 1) = searchBackLoop s dflt (j - 1) steps := by
        show (if isBoundaryAt s j then j + 1 else searchBackLoop s dflt (j - 1) steps) = _
        rw [if_neg hb]
      rw [hstep]
      rcases ih (j - 1) with h | ⟨jf, hle, hbf, heq⟩
      · exact Or.inl h
      · exact Or.inr ⟨jf, le_trans hle (Nat.sub_le j 1), hbf, heq⟩

theorem searchBackLoop_finds (s : List Char) (dflt : ℕ) :
    ∀ (steps j0 : ℕ),
      (∃ js, isBoundaryAt s js = true ∧ j0 + 1 ≤ js + steps ∧ js ≤ j0) →
      ∃ jf, isBoundaryAt s jf = true ∧ searchBackLoop s dflt j0 steps = jf + 1 := by
  intro steps
  induction steps with
  | zero =>
    intro j0 ⟨js, _, h1, h2⟩
    omega
  | succ steps ih =>
    intro j0 ⟨js, hbs, h1, h2⟩
    by_cases hb : isBoundaryAt s j0
    · refine ⟨j0, hb, ?_⟩
      show (if isBoundaryAt s j0 then j0 + 1 else searchBackLoop s dflt (j0 - 1) steps) = j0 + 1
      rw [if_pos hb]
    · have hne : js ≠ j0 := by
        intro h
        rw [h] at hbs
        exact absurd hbs (by simpa using hb)
      have hstep : searchBackLoop s dflt j0 (steps + 1)
          = searchBackLoop s dflt (j0 - 1) steps := by
        show (if isBoundaryAt s j0 then j0 + 1 else searchBackLoop s dflt (j0 - 1) steps) = _
        rw [if_neg hb]
      rw [hstep]
      exact ih (j0 - 1) ⟨js, hbs, by omega, by omega⟩

theorem dropWhile_append_single_nonws (c : Char) (h : isWsChar c = false) :
    ∀ xs : List Char, (xs ++ [c]).dropWhile isWsChar = xs.dropWhile isWsChar ++ [c] := by
  intro xs
  induction xs with
  | nil => simp [List.dropWhile_cons, h]
  | cons x xs ih =>
    by_cases hx : isWsChar x
    · simp [List.dropWhile_cons, hx, ih]
    · simp [List.dropWhile_cons, hx]

theorem trimChars_concat_nonws (xs : List Char) (c : Char) (h : isWsChar c = false) :
    trimChars (xs ++ [c]) = xs.dropWhile isWsChar ++ [c] := by
  unfold trimChars
  rw [dropWhile_append_single_nonws c h xs]
  rw [List.reverse_append]
  show (List.dropWhile isWsChar (c :: (xs.dropWhile isWsChar).reverse)).reverse = _
  rw [List.dropWhile_cons, if_neg (by simp [h])]
  simp

theorem endsTerm_nonws {c : Char} (h : (c = '.' || c = '。') = true) : isWsChar c = false := by
  rcases Bool.or_eq_true_iff.mp h with h1 | h1
  · simp_all
    decide
  · simp_all
    decide

theorem endsTerm_trimChars {s : List Char} (h : endsAtSentenceTerminator s = true) :
    endsAtSentenceTerminator (trimChars s) = true := by
  rcases List.eq_nil_or_concat s with hnil | ⟨ys, c, hcat⟩
  · rw [hnil] at h
    simp [endsAtSentenceTerminator] at h
  · rw [List.concat_eq_append] at hcat
    subst hcat
    have hterm : (c = '.' || c = '。') = true := by
      unfold endsAtSentenceTerminator at h
      rw [List.getLast?_concat] at h
      exact h
    rw [trimChars_concat_nonws ys c (endsTerm_nonws hterm)]
    unfold endsAtSentenceTerminator
    rw [List.getLast?_concat]
    exact hterm

theorem endsTerm_ne_nil {s : List Char} (h : endsAtSentenceTerminator s = true) : s ≠ [] := by
  intro hnil
  rw [hnil] at h
  simp [endsAtSentenceTerminator] at h

theorem endsTerm_append {a s : List Char} (hne : s ≠ [])
    (h : endsAtSentenceTerminator s = true) :
    endsAtSentenceTerminator (a ++ s) = true := by
  unfold endsAtSentenceTerminator at h ⊢
  have hgl : (a ++ s).getLast? = s.getLast? := List.getLast?_append_of_ne_nil _ hne
  rw [hgl]
  exact h

/-- The forced-split chunk keeps at most 55 words. -/
theorem forced_take_le (r : List Char) (hnr : '\r' ∉ r) :
    (splitWords (r.take (searchBackFullStop r (findWordPos55 r)))).length ≤ 55 := by
  have hspec := findWordPosAux_spec 55 r [] 0 (findWordPos55 r) (by simpa using hnr) rfl
    (by omega) rfl
  simp only [List.nil_append] at hspec
  by_cases hci : findWordPos55 r = 0
  · have hle : searchBackFullStop r (findWordPos55 r) ≤ 1 := by
      rw [hci]
      show searchBackLoop r 0 0 (min 0 200 + 1) ≤ 1
      rcases searchBackLoop_cases r 0 (min 0 200 + 1) 0 with h | ⟨jf, hjf, _, heq⟩
      · omega
      · rw [heq]; omega
    rw [splitWords_length_countW]
    have h1 := countW_le_length (r.take (searchBackFullStop r (findWordPos55 r))) false
    have h2 : (r.take (searchBackFullStop r (findWordPos55 r))).length
        ≤ searchBackFullStop r (findWordPos55 r) := by
      simp [List.length_take]
    simp at h1
    omega
  · obtain ⟨hcount, c, hget, hscan⟩ := hspec.1 hci
    have hnb : isBoundaryAt r (findWordPos55 r) = false := by
      unfold isBoundaryAt
      rw [hget]
      show ((c = '.' || c = '。') && _) = false
      rw [scanWs_not_terminator hscan]
      rfl
    have hle : searchBackFullStop r (findWordPos55 r) ≤ findWordPos55 r := by
      unfold searchBackFullStop
      rcases searchBackLoop_cases r (findWordPos55 r)
          (min (findWordPos55 r) 200 + 1) (findWordPos55 r) with h | ⟨jf, hjf, hbf, heq⟩
      · omega
      · have : jf ≠ findWordPos55 r := by
          intro hcon
          rw [hcon, hnb] at hbf
          exact absurd hbf (by simp)
        rw [heq]
        omega
    rw [splitWords_length_countW]
    have := countW_take_mono r (searchBackFullStop r (findWordPos55 r)) (findWordPos55 r) hle
    omega

/-- When a boundary lies in the 200-character window before the 55th-word
position, the forced-split chunk ends with a sentence terminator. -/
theorem forced_take_ends (r : List Char)
    (hwin : ∃ j, isBoundaryAt r j = true ∧ findWordPos55 r ≤ j + 200 ∧ j ≤ findWordPos55 r) :
    endsAtSentenceTerminator (trimChars (r.take (searchBackFullStop r (findWordPos55 r))))
      = true := by
  obtain ⟨j, hb, hj1, hj2⟩ := hwin
  have hfind := searchBackLoop_finds r (findWordPos55 r) (min (findWordPos55 r) 200 + 1)
    (findWordPos55 r) ⟨j, hb, by omega, hj2⟩
  obtain ⟨jf, hbf, heq⟩ := hfind
  have hsp : searchBackFullStop r (findWordPos55 r) = jf + 1 := heq
  obtain ⟨t, hget, hterm⟩ : ∃ t, r[jf]? = some t ∧ (t = '.' || t = '。') = true := by
    unfold isBoundaryAt at hbf
    cases hg : r[jf]? with
    | none => rw [hg] at hbf; simp at hbf
    | some t =>
      rw [hg] at hbf
      exact ⟨t, rfl, (Bool.and_eq_true_iff.mp hbf).1⟩
  have htake : r.take (jf + 1) = r.take jf ++ [t] := by
    rw [List.take_succ, hget]
    rfl
  rw [hsp, htake, trimChars_concat_nonws _ t (endsTerm_nonws hterm)]
  unfold endsAtSentenceTerminator
  rw [List.getLast?_concat]
  exact hterm

/-! Sentence-scanner lemmas. -/

theorem term_or_bool {c : Char} (h : c = '.' ∨ c = '。') : (c = '.' || c = '。') = true := by
  rcases h with h | h <;> simp [h]

theorem endsTerm_trim_concat {c : Char} (xs : List Char) (h : c = '.' ∨ c = '。') :
    endsAtSentenceTerminator (trimChars (xs ++ [c])) = true := by
  rw [trimChars_concat_nonws xs c (endsTerm_nonws (term_or_bool h))]
  unfold endsAtSentenceTerminator
  rw [List.getLast?_concat]
  exact term_or_bool h

theorem splitSentencesAux_dropLast_ends :
    ∀ (s cur : List Char), ∀ u ∈ (splitSentencesAux s cur).dropLast,
      endsAtSentenceTerminator u = true := by
  intro s cur
  induction s, cur using splitSentencesAux.induct with
  | case1 cur h =>
    intro u hu
    simp [splitSentencesAux, h] at hu
  | case2 cur h =>
    intro u hu
    simp [splitSentencesAux, h] at hu
  | case3 c cur h =>
    intro u hu
    simp [splitSentencesAux, h] at hu
  | case4 c cur h ih =>
    intro u hu
    rw [show splitSentencesAux [c] cur = splitSentencesAux [] (c :: cur) by
      simp [splitSentencesAux, h]] at hu
    exact ih u hu
  | case5 c d ds cur h hws ih =>
    intro u hu
    rw [show splitSentencesAux (c :: d :: ds) cur
        = trimChars (cur.reverse ++ [c]) :: splitSentencesAux ds [] by
      simp [splitSentencesAux, h, hws]] at hu
    cases hl : splitSentencesAux ds [] with
    | nil =>
      rw [hl] at hu
      simp at hu
    | cons y l' =>
      rw [hl] at hu
      rw [List.dropLast_cons₂] at hu
      rcases List.mem_cons.mp hu with hu | hu
      · rw [hu]
        exact endsTerm_trim_concat cur.reverse h
      · rw [← hl] at hu
        exact ih u hu
  | case6 c d ds cur h hws ih =>
    intro u hu
    rw [show splitSentencesAux (c :: d :: ds) cur = splitSentencesAux (d :: ds) (c :: cur) by
      simp [splitSentencesAux, h, hws]] at hu
    exact ih u hu
  | case7 c d ds cur h ih =>
    intro u hu
    rw [show splitSentencesAux (c :: d :: ds) cur = splitSentencesAux (d :: ds) (c :: cur) by
      simp [splitSentencesAux, h]] at hu
    exact ih u hu

theorem all_ws_of_trim_nil {x : List Char} (h : trimChars x = []) :
    ∀ c ∈ x, isWsChar c = true := by
  unfold trimChars at h
  rw [List.reverse_eq_nil_iff] at h
  rw [List.dropWhile_eq_nil_iff] at h
  intro c hc
  have hx : x = x.takeWhile isWsChar ++ x.dropWhile isWsChar :=
    (List.takeWhile_append_dropWhile ..).symm
  rw [hx] at hc
  rcases List.mem_append.mp hc with h1 | h1
  · exact List.mem_takeWhile_imp h1
  · exact h c (List.mem_reverse.mpr h1)

theorem splitSentencesAux_wordSum :
    ∀ (s cur : List Char),
      ((splitSentencesAux s cur).map (fun u => (splitWords u).length)).sum
        = (splitWords (cur.reverse ++ s)).length := by
  intro s cur
  induction s, cur using splitSentencesAux.induct with
  | case1 cur h =>
    rw [show splitSentencesAux [] cur = [] by simp [splitSentencesAux, h]]
    rw [List.append_nil]
    rw [splitWords_all_ws cur.reverse
      (all_ws_of_trim_nil (List.isEmpty_iff.mp h))]
    rfl
  | case2 cur h =>
    rw [show splitSentencesAux [] cur = [trimChars cur.reverse] by
      simp only [splitSentencesAux]
      rw [if_neg h]]
    simp [splitWords_trimChars]
  | case3 c cur h =>
    rw [show splitSentencesAux [c] cur = [trimChars (cur.reverse ++ [c])] by
      simp [splitSentencesAux, h]]
    simp [splitWords_trimChars]
  | case4 c cur h ih =>
    rw [show splitSentencesAux [c] cur = splitSentencesAux [] (c :: cur) by
      simp [splitSentencesAux, h]]
    rw [ih]
    simp
  | case5 c d ds cur h hws ih =>
    rw [show splitSentencesAux (c :: d :: ds) cur
        = trimChars (cur.reverse ++ [c]) :: splitSentencesAux ds [] by
      simp [splitSentencesAux, h, hws]]
    rw [List.map_cons, List.sum_cons, ih]
    rw [show cur.reverse ++ c :: d :: ds = (cur.reverse ++ [c]) ++ d :: ds by simp]
    rw [splitWords_ws_mid d hws (cur.reverse ++ [c]) ds]
    simp [splitWords_trimChars]
  | case6 c d ds cur h hws ih =>
    rw [show splitSentencesAux (c :: d :: ds) cur = splitSentencesAux (d :: ds) (c :: cur) by
      simp [splitSentencesAux, h, hws]]
    rw [ih]
    simp
  | case7 c d ds cur h ih =>
    rw [show splitSentencesAux (c :: d :: ds) cur = splitSentencesAux (d :: ds) (c :: cur) by
      simp [splitSentencesAux, h]]
    rw [ih]
    simp

/-! The best-split invariant. -/

theorem wc_acc_append (accText s : List Char)
    (hsh : accText = [] ∨ ∃ a, accText = a ++ [' ']) :
    (splitWords (accText ++ s)).length
      = (splitWords accText).length + (splitWords s).length := by
  rcases hsh with h | ⟨a, h⟩
  · subst h
    simp [splitWords, splitWordsAux]
  · subst h
    rw [show (a ++ [' ']) ++ s = a ++ ' ' :: s by simp]
    rw [splitWords_ws_mid ' ' (by decide) a s]
    rw [splitWords_append_ws a [' '] (by intro c hc; simp at hc; rw [hc]; decide)]
    simp

theorem dropLast_cons_subset {α : Type} (s : α) (rest : List α) :
    ∀ u ∈ rest.dropLast, u ∈ (s :: rest).dropLast := by
  cases rest with
  | nil =>
    intro u hu
    simp at hu
  | cons y l =>
    intro u hu
    rw [List.dropLast_cons₂]
    exact List.mem_cons_of_mem _ hu

theorem mem_dropLast_cons_self {α : Type} (s : α) {rest : List α} (h : rest ≠ []) :
    s ∈ (s :: rest).dropLast := by
  cases rest with
  | nil => exact absurd rfl h
  | cons y l =>
    rw [List.dropLast_cons₂]
    exact List.mem_cons_self _ _

theorem findBestSplitAux_cons (s : List Char) (rest : List (List Char))
    (accText : List Char) (accCount : ℕ) (bestText : List Char) (bestCount : ℕ) :
    findBestSplitAux (s :: rest) accText accCount bestText bestCount
      = if 55 < accCount + (splitWords s).length then
          (if 45 ≤ accCount + (splitWords s).length ∧ accCount + (splitWords s).length ≤ 55
             then accText ++ s else bestText,
           if 45 ≤ accCount + (splitWords s).length ∧ accCount + (splitWords s).length ≤ 55
             then accCount + (splitWords s).length else bestCount)
        else findBestSplitAux rest (accText ++ s ++ [' ']) (accCount + (splitWords s).length)
          (if 45 ≤ accCount + (splitWords s).length ∧ accCount + (splitWords s).length ≤ 55
             then accText ++ s else bestText)
          (if 45 ≤ accCount + (splitWords s).length ∧ accCount + (splitWords s).length ≤ 55
             then accCount + (splitWords s).length else bestCount) := rfl

theorem findBestSplitAux_spec :
    ∀ (sents : List (List Char)) (accText : List Char) (accCount : ℕ)
      (bestText : List Char) (bestCount T : ℕ),
      accCount = (splitWords accText).length →
      (accText = [] ∨ ∃ a, accText = a ++ [' ']) →
      (bestText ≠ [] → (splitWords bestText).length ≤ 55
        ∧ endsAtSentenceTerminator bestText = true) →
      (∀ u ∈ sents.dropLast, endsAtSentenceTerminator u = true) →
      accCount + (sents.map (fun u => (splitWords u).length)).sum = T →
      55 < T →
      ((findBestSplitAux sents accText accCount bestText bestCount).1 ≠ [] →
        (splitWords (findBestSplitAux sents accText accCount bestText bestCount).1).length ≤ 55
        ∧ endsAtSentenceTerminator
            (findBestSplitAux sents accText accCount bestText bestCount).1 = true) := by
  intro sents
  induction sents with
  | nil =>
    intro accText accCount bestText bestCount T hacc hsh hbest hdl hsum hT
    exact hbest
  | cons s rest ih =>
    intro accText accCount bestText bestCount T hacc hsh hbest hdl hsum hT
    rw [findBestSplitAux_cons]
    simp only [List.map_cons, List.sum_cons] at hsum
    by_cases hband : 45 ≤ accCount + (splitWords s).length
        ∧ accCount + (splitWords s).length ≤ 55
    · obtain ⟨hb1, hb2⟩ := hband
      have hrest : rest ≠ [] := by
        intro hr
        rw [hr] at hsum
        simp at hsum
        omega
      have hsterm : endsAtSentenceTerminator s = true :=
        hdl s (mem_dropLast_cons_self s hrest)
      have hsne : s ≠ [] := endsTerm_ne_nil hsterm
      have hwc2 : (splitWords (accText ++ s)).length
          = accCount + (splitWords s).length := by
        rw [wc_acc_append accText s hsh, hacc]
      have hbest2 : (accText ++ s) ≠ []
          → (splitWords (accText ++ s)).length ≤ 55
            ∧ endsAtSentenceTerminator (accText ++ s) = true := by
        intro _
        exact ⟨by rw [hwc2]; omega, endsTerm_append hsne hsterm⟩
      rw [if_neg (by omega : ¬ 55 < accCount + (splitWords s).length)]
      rw [if_pos ⟨hb1, hb2⟩, if_pos ⟨hb1, hb2⟩]
      apply ih (accText ++ s ++ [' ']) (accCount + (splitWords s).length)
        (accText ++ s) (accCount + (splitWords s).length) T
      · rw [show accText ++ s ++ [' '] = (accText ++ s) ++ [' '] from rfl]
        rw [splitWords_append_ws (accText ++ s) [' ']
          (by intro c hc; simp at hc; rw [hc]; decide)]
        rw [hwc2]
      · exact Or.inr ⟨accText ++ s, rfl⟩
      · exact hbest2
      · intro u hu
        exact hdl u (dropLast_cons_subset s rest u hu)
      · omega
      · exact hT
    · rw [if_neg hband, if_neg hband]
      by_cases hgt : 55 < accCount + (splitWords s).length
      · rw [if_pos hgt]
        exact hbest
      · rw [if_neg hgt]
        apply ih (accText ++ s ++ [' ']) (accCount + (splitWords s).length) bestText bestCount T
        · rw [show accText ++ s ++ [' '] = (accText ++ s) ++ [' '] from rfl]
          rw [splitWords_append_ws (accText ++ s) [' ']
            (by intro c hc; simp at hc; rw [hc]; decide)]
          rw [wc_acc_append accText s hsh, hacc]
        · exact Or.inr ⟨accText ++ s, rfl⟩
        · exact hbest
        · intro u hu
          exact hdl u (dropLast_cons_subset s rest u hu)
        · omega
        · exact hT

/-- One splitting step on a carriage-return-free remaining text of more
than 55 words: the emitted chunk has at most 55 words, and it ends with a
sentence terminator whenever a boundary lies within the backward-search
window of 200 characters before the 55th-word position (the sentence-bound
best candidate, when taken, always ends with a terminator). -/
theorem splitStep_spec (r : List Char) (hnr : '\r' ∉ r)
    (hgt : 55 < (splitWords r).length) :
    (splitWords (splitStep r).1).length ≤ 55
    ∧ ((∃ j, isBoundaryAt r j = true ∧ findWordPos55 r ≤ j + 200 ∧ j ≤ findWordPos55 r) →
        endsAtSentenceTerminator (splitStep r).1 = true) := by
  unfold splitStep
  by_cases h1 : (findBestSplit (splitSentences r)).1.length > 0
      ∧ 45 ≤ (findBestSplit (splitSentences r)).2
  · rw [if_pos h1]
    have hne : (findBestSplit (splitSentences r)).1 ≠ [] :=
      List.ne_nil_of_length_pos h1.1
    have hsum : 0 + ((splitSentences r).map (fun u => (splitWords u).length)).sum
        = (splitWords r).length := by
      rw [Nat.zero_add]
      have := splitSentencesAux_wordSum r []
      simpa [splitSentences] using this
    have hspec := findBestSplitAux_spec (splitSentences r) [] 0 [] 0
      ((splitWords r).length) (by rfl) (Or.inl rfl) (by intro h; exact absurd rfl h)
      (fun u hu => splitSentencesAux_dropLast_ends r [] u hu) hsum hgt
    obtain ⟨hle, hterm⟩ := hspec hne
    constructor
    · rw [splitWords_trimChars]
      exact hle
    · intro _
      exact endsTerm_trimChars hterm
  · rw [if_neg h1, if_pos hgt]
    refine ⟨?_, ?_⟩
    · show (splitWords (trimChars (r.take (searchBackFullStop r (findWordPos55 r))))).length ≤ 55
      rw [splitWords_trimChars]
      exact forced_take_le r hnr
    · intro hwin
      exact forced_take_ends r hwin

theorem splitStep_snd_subset (r : List Char) : ∀ c ∈ (splitStep r).2, c ∈ r := by
  intro c hc
  unfold splitStep at hc
  by_cases h1 : (findBestSplit (splitSentences r)).1.length > 0
      ∧ 45 ≤ (findBestSplit (splitSentences r)).2
  · rw [if_pos h1] at hc
    exact List.mem_of_mem_drop (mem_trimChars hc)
  · rw [if_neg h1] at hc
    by_cases h2 : 55 < (splitWords r).length
    · rw [if_pos h2] at hc
      exact List.mem_of_mem_drop (mem_trimChars hc)
    · rw [if_neg h2] at hc
      simp at hc

theorem splitLongLoop_le (fuel : ℕ) :
    ∀ r : List Char, '\r' ∉ r →
      ∀ chunk ∈ splitLongLoop fuel r, (splitWords chunk).length ≤ 55 := by
  induction fuel with
  | zero =>
    intro r _ chunk hc
    simp [splitLongLoop] at hc
  | succ fuel ih =>
    intro r hnr chunk hc
    rw [show splitLongLoop (fuel + 1) r
        = if (trimChars r).isEmpty then []
          else if (splitWords r).length ≤ 55 then [trimChars r]
          else (splitStep r).1 :: splitLongLoop fuel (splitStep r).2 from rfl] at hc
    by_cases hemp : (trimChars r).isEmpty
    · rw [if_pos hemp] at hc
      simp at hc
    · rw [if_neg hemp] at hc
      by_cases h55 : (splitWords r).length ≤ 55
      · rw [if_pos h55] at hc
        simp at hc
        rw [hc, splitWords_trimChars]
        exact h55
      · rw [if_neg h55] at hc
        rcases List.mem_cons.mp hc with hc | hc
        · rw [hc]
          exact (splitStep_spec r hnr (by omega)).1
        · exact ih (splitStep r).2
            (fun hmem => hnr (splitStep_snd_subset r '\r' hmem)) chunk hc

/-- C3 (amended): on carriage-return-free input every chunk produced by
`splitLongParagraph` has at most 55 words (the 55th-word scanner of line
795 does not count `'\r'` as whitespace, so texts containing carriage
returns can yield over-long chunks); and the chosen split point ends at a
sentence terminator only when a boundary lies within the backward-search
window of at most 200 characters before the 55th-word position - not
whenever one exists within the first 55 words, as the original claim
states and `C3_claim_counterexample` refutes. -/
theorem C3_amended :
    (∀ (fuel : ℕ) (text : List Char), '\r' ∉ text →
      ∀ chunk ∈ splitLongParagraph fuel text, (splitWords chunk).length ≤ 55)
    ∧ (∀ r : List Char, '\r' ∉ r → 55 < (splitWords r).length →
        (∃ j, isBoundaryAt r j = true ∧ findWordPos55 r ≤ j + 200 ∧ j ≤ findWordPos55 r) →
        endsAtSentenceTerminator (splitStep r).1 = true) := by
  constructor
  · intro fuel text hnr chunk hc
    unfold splitLongParagraph at hc
    by_cases h55 : (splitWords text).length ≤ 55
    · rw [if_pos h55] at hc
      simp at hc
      rw [hc]
      exact h55
    · rw [if_neg h55] at hc
      exact splitLongLoop_le fuel text hnr chunk hc
  · intro r hnr hgt hwin
    exact (splitStep_spec r hnr hgt).2 hwin

/-- The amended theorem's witness text: fifty one-letter words, a
two-letter word closed by a full stop at character 102 (six characters
before the 55th-word position 111, inside the backward-search window), and
nine trailing one-letter words - 60 words in all. -/
def wText : List Char :=
  joinWords (List.replicate 50 ['c']) ++ [' '] ++ ['d', 'd', '.', ' ']
    ++ joinWords (List.replicate 9 ['e'])

set_option maxRecDepth 8000 in
theorem C3_amended_witness :
    ('\r' ∉ wText
      ∧ (splitLongParagraph 4 wText).getD 0 [] ∈ splitLongParagraph 4 wText
      ∧ (splitWords ((splitLongParagraph 4 wText).getD 0 [])).length ≤ 55)
    ∧ (55 < (splitWords wText).length
      ∧ isBoundaryAt wText 102 = true
      ∧ findWordPos55 wText ≤ 102 + 200
      ∧ 102 ≤ findWordPos55 wText
      ∧ endsAtSentenceTerminator (splitStep wText).1 = true) :=
  ⟨⟨by decide, by decide,
    C3_amended.1 4 wText (by decide) ((splitLongParagraph 4 wText).getD 0 []) (by decide)⟩,
   ⟨by decide, by decide, by decide, by decide,
    C3_amended.2 wText (by decide) (by decide) ⟨102, by decide, by decide, by decide⟩⟩⟩
